import Mathlib

/-!
Verification of the precap meeting-preparation application.

The definitions below are shallow embeddings of the application's source:
the Google-Docs request builder (`createMeetingDoc` in the docs service),
the research pipeline (`handleContinue` in `Calendar.tsx`, `searchPerson`
in the exa service, `generatePersonSummary` in `summaryService.ts`), the
exa search API route, the summary API route, the calendar grid, the
summary renderer (`ExaResults.tsx`) and the attendee selection toggle.
External HTTP calls are modelled by explicit outcome values, and effectful
control flow by traces of events.
-/

namespace Precap

/-! ### The docs service: `createMeetingDoc`'s batchUpdate request list

`createMeetingDoc` builds a list of Google-Docs `batchUpdate` requests,
tracking a running `currentIndex` that starts at 1.  Requests are either
`insertText { location.index, text }`, `updateParagraphStyle { range }` or
`updateTextStyle { range }`. -/

inductive DocRequest where
  | insertText (index : Nat) (text : String)
  | updateParagraphStyle (startIndex endIndex : Nat) (namedStyleType : String)
  | updateTextStyle (startIndex endIndex : Nat) (linkUrl : String)
  deriving DecidableEq, Repr

structure DocSource where
  title : String
  url : String
  deriving DecidableEq, Repr

/-- The numbered source entries (bullet, text, url), exactly as
`createMeetingDoc` builds `sourcesList`:
`{ bullet: "<index+1>.", text: source.title, url: source.url }`. -/
def sourcesList (sources : List DocSource) : List (String × String × String) :=
  (sources.enum).map (fun p => (toString (p.1 + 1) ++ ".", p.2.title, p.2.url))

/-- The per-source requests appended by the `sourcesList.forEach` loop of
`createMeetingDoc`: insert the bullet, advance, insert the source text and
style it as a link, advance. -/
def sourceRequests : Nat → List (String × String × String) → List DocRequest
  | _, [] => []
  | currentIndex, (bullet, text, url) :: rest =>
    let bulletText := bullet ++ " "
    let sourceText := text ++ "\n"
    DocRequest.insertText currentIndex bulletText ::
    DocRequest.insertText (currentIndex + bulletText.length) sourceText ::
    DocRequest.updateTextStyle (currentIndex + bulletText.length)
      (currentIndex + bulletText.length + text.length) url ::
    sourceRequests (currentIndex + bulletText.length + sourceText.length) rest

/-- The full request list of `createMeetingDoc` for a person summary with
the given name, date string (`new Date().toLocaleDateString()`), summary
text and sources. -/
def createMeetingDocRequests (name dateStr summary : String)
    (sources : List DocSource) : List DocRequest :=
  let titleText := name ++ " " ++ dateStr ++ " - Meeting Notes\n"
  let titleLength := titleText.length
  let keyTakeawaysText := "Key Takeaways\n\n"
  let bulletPoints := "• \n• \n• \n\n"
  let actionItemsText := "Action Items\n\n"
  let actionBullets := "• \n• \n\n"
  let summaryHeaderText := "Professional Summary\n\n"
  let summaryText := summary ++ "\n\n"
  let sourcesHeaderText := "Sources\n\n"
  let i1 := 1
  let i2 := i1 + titleLength
  let i3 := i2 + keyTakeawaysText.length
  let i4 := i3 + bulletPoints.length
  let i5 := i4 + actionItemsText.length
  let i6 := i5 + actionBullets.length
  let i7 := i6 + summaryHeaderText.length
  let i8 := i7 + summaryText.length
  let i9 := i8 + sourcesHeaderText.length
  [DocRequest.insertText i1 titleText,
   DocRequest.updateParagraphStyle i1 (i1 + titleLength) "HEADING_1",
   DocRequest.insertText i2 keyTakeawaysText,
   DocRequest.updateParagraphStyle i2 (i2 + keyTakeawaysText.length - 1) "HEADING_2",
   DocRequest.insertText i3 bulletPoints,
   DocRequest.insertText i4 actionItemsText,
   DocRequest.updateParagraphStyle i4 (i4 + actionItemsText.length - 1) "HEADING_2",
   DocRequest.insertText i5 actionBullets,
   DocRequest.insertText i6 summaryHeaderText,
   DocRequest.updateParagraphStyle i6 (i6 + summaryHeaderText.length - 1) "HEADING_2",
   DocRequest.insertText i7 summaryText,
   DocRequest.updateParagraphStyle i7 (i7 + summaryText.length) "NORMAL_TEXT",
   DocRequest.insertText i8 sourcesHeaderText,
   DocRequest.updateParagraphStyle i8 (i8 + sourcesHeaderText.length - 1) "HEADING_2"]
  ++ sourceRequests i9 (sourcesList sources)

/-- The running-offset check: walking the request list with an accumulator
that starts at the initial index and grows by the length of every inserted
text, each `insertText` request's location index must equal the
accumulator, i.e. the initial index plus the total length of the text
inserted by the earlier `insertText` requests. -/
def offsetsOk : Nat → List DocRequest → Bool
  | _, [] => true
  | acc, DocRequest.insertText i t :: rest => i == acc && offsetsOk (acc + t.length) rest
  | acc, DocRequest.updateParagraphStyle _ _ _ :: rest => offsetsOk acc rest
  | acc, DocRequest.updateTextStyle _ _ _ :: rest => offsetsOk acc rest

/-- The `(index, text)` pairs of the `insertText` requests, in order. -/
def insertTexts : List DocRequest → List (Nat × String)
  | [] => []
  | DocRequest.insertText i t :: rest => (i, t) :: insertTexts rest
  | DocRequest.updateParagraphStyle _ _ _ :: rest => insertTexts rest
  | DocRequest.updateTextStyle _ _ _ :: rest => insertTexts rest

/-- The location indices of the `insertText` requests, in order. -/
def insertIndices (l : List DocRequest) : List Nat := (insertTexts l).map Prod.fst

/-- The texts of the `insertText` requests, in order. -/
def insertedTexts (l : List DocRequest) : List String := (insertTexts l).map Prod.snd

/-- Every `insertText` request inserts a nonempty text. -/
def textsPos (l : List DocRequest) : Bool :=
  (insertTexts l).all (fun p => decide (0 < p.2.length))

/-- The style-range check: walking the request list while remembering the
span `[lo, hi)` of the text inserted by the last `insertText` request,
every `updateParagraphStyle` or `updateTextStyle` range must lie inside
that span. -/
def stylesOk : Nat → Nat → List DocRequest → Bool
  | _, _, [] => true
  | _, _, DocRequest.insertText i t :: rest => stylesOk i (i + t.length) rest
  | lo, hi, DocRequest.updateParagraphStyle s e _ :: rest =>
      (decide (lo ≤ s) && decide (s ≤ e) && decide (e ≤ hi)) && stylesOk lo hi rest
  | lo, hi, DocRequest.updateTextStyle s e _ :: rest =>
      (decide (lo ≤ s) && decide (s ≤ e) && decide (e ≤ hi)) && stylesOk lo hi rest

theorem sourceRequests_offsetsOk (entries : List (String × String × String)) :
    ∀ ci : Nat, offsetsOk ci (sourceRequests ci entries) = true := by
  induction entries with
  | nil => intro ci; rfl
  | cons e rest ih =>
    intro ci
    obtain ⟨bullet, text, url⟩ := e
    simp [sourceRequests, offsetsOk, ih]

theorem sourceRequests_insertTexts (entries : List (String × String × String)) :
    ∀ ci : Nat, insertedTexts (sourceRequests ci entries)
      = (entries.map (fun e => [e.1 ++ " ", e.2.1 ++ "\n"])).flatten := by
  induction entries with
  | nil => intro ci; rfl
  | cons e rest ih =>
    intro ci
    obtain ⟨bullet, text, url⟩ := e
    simp [sourceRequests, insertTexts, insertedTexts] at ih ⊢
    exact ih _

theorem sourceRequests_textsPos (entries : List (String × String × String)) :
    ∀ ci : Nat, textsPos (sourceRequests ci entries) = true := by
  induction entries with
  | nil => intro ci; rfl
  | cons e rest ih =>
    intro ci
    obtain ⟨bullet, text, url⟩ := e
    have h1 : (" " : String).length = 1 := rfl
    have h2 : ("\n" : String).length = 1 := rfl
    simp only [sourceRequests, textsPos, insertTexts, List.all_cons, Bool.and_eq_true,
      decide_eq_true_eq]
    refine ⟨by rw [String.length_append]; omega, by rw [String.length_append]; omega,
      by simpa [textsPos] using ih _⟩

theorem sourceRequests_stylesOk (entries : List (String × String × String)) :
    ∀ ci lo hi : Nat, stylesOk lo hi (sourceRequests ci entries) = true := by
  induction entries with
  | nil => intro ci lo hi; rfl
  | cons e rest ih =>
    intro ci lo hi
    obtain ⟨bullet, text, url⟩ := e
    simp [sourceRequests, stylesOk, ih, String.length_append]

/-- From the offset check and nonemptiness of the inserted texts, the
insert location indices are strictly increasing. -/
theorem offsetsOk_pairwise (l : List DocRequest) :
    ∀ acc : Nat, offsetsOk acc l = true → textsPos l = true →
    List.Pairwise (· < ·) (insertIndices l) ∧ ∀ j ∈ insertIndices l, acc ≤ j := by
  induction l with
  | nil =>
    intro acc _ _
    exact ⟨List.Pairwise.nil, by simp [insertIndices, insertTexts]⟩
  | cons r rest ih =>
    intro acc hoff hpos
    cases r with
    | insertText i t =>
      simp only [offsetsOk, Bool.and_eq_true, beq_iff_eq] at hoff
      obtain ⟨hi, hrest⟩ := hoff
      simp only [textsPos, insertTexts, List.all_cons, Bool.and_eq_true,
        decide_eq_true_eq] at hpos
      obtain ⟨ht, hrestpos⟩ := hpos
      obtain ⟨hpw, hlb⟩ := ih (acc + t.length) hrest (by simpa [textsPos] using hrestpos)
      subst hi
      simp only [insertIndices, insertTexts, List.map_cons, List.pairwise_cons,
        List.mem_cons]
      refine ⟨⟨?_, hpw⟩, ?_⟩
      · intro y hy
        have := hlb y hy
        omega
      · rintro j (rfl | hj)
        · exact Nat.le_refl _
        · have := hlb j hj
          omega
    | updateParagraphStyle s e sty =>
      have := ih acc (by simpa [offsetsOk] using hoff)
        (by simpa [textsPos, insertTexts] using hpos)
      simpa [insertIndices, insertTexts] using this
    | updateTextStyle s e u =>
      have := ih acc (by simpa [offsetsOk] using hoff)
        (by simpa [textsPos, insertTexts] using hpos)
      simpa [insertIndices, insertTexts] using this

theorem createMeetingDocRequests_offsetsOk (name dateStr summary : String)
    (sources : List DocSource) :
    offsetsOk 1 (createMeetingDocRequests name dateStr summary sources) = true := by
  simp [createMeetingDocRequests, offsetsOk, sourceRequests_offsetsOk]

theorem createMeetingDocRequests_textsPos (name dateStr summary : String)
    (sources : List DocSource) :
    textsPos (createMeetingDocRequests name dateStr summary sources) = true := by
  have h1 : (" - Meeting Notes\n" : String).length = 17 := rfl
  have h2 : (" " : String).length = 1 := rfl
  have h3 : ("\n\n" : String).length = 2 := rfl
  simp only [createMeetingDocRequests, textsPos, insertTexts, List.cons_append,
    List.nil_append, List.all_cons, Bool.and_eq_true, decide_eq_true_eq]
  refine ⟨by rw [String.length_append, String.length_append, String.length_append]; omega,
    by decide, by decide, by decide, by decide, by decide,
    by rw [String.length_append]; omega, by decide,
    by simpa [textsPos] using sourceRequests_textsPos (sourcesList sources) _⟩

/-- C1: in `createMeetingDoc`, the `batchUpdate` request list maintains the
running-offset invariant: each `insertText` location index equals 1 plus
the total length of the text inserted by the earlier `insertText` requests
(`offsetsOk 1`); consequently the insert location indices are strictly
increasing; the inserted texts are, in order, the title, the Key Takeaways
heading, the takeaway bullets, the Action Items heading, the action
bullets, the Professional Summary heading, the summary text, the Sources
heading, and one numbered bullet-plus-title line per source; and every
`updateParagraphStyle` or `updateTextStyle` range lies entirely within the
text inserted for its own section (`stylesOk`). -/
theorem createMeetingDoc_request_invariant (name dateStr summary : String)
    (sources : List DocSource) :
    offsetsOk 1 (createMeetingDocRequests name dateStr summary sources) = true ∧
    List.Pairwise (· < ·)
      (insertIndices (createMeetingDocRequests name dateStr summary sources)) ∧
    insertedTexts (createMeetingDocRequests name dateStr summary sources)
      = [name ++ " " ++ dateStr ++ " - Meeting Notes\n", "Key Takeaways\n\n",
         "• \n• \n• \n\n", "Action Items\n\n", "• \n• \n\n",
         "Professional Summary\n\n", summary ++ "\n\n", "Sources\n\n"]
        ++ ((sourcesList sources).map (fun e => [e.1 ++ " ", e.2.1 ++ "\n"])).flatten ∧
    stylesOk 0 0 (createMeetingDocRequests name dateStr summary sources) = true := by
  refine ⟨createMeetingDocRequests_offsetsOk name dateStr summary sources, ?_, ?_, ?_⟩
  · exact (offsetsOk_pairwise _ 1
      (createMeetingDocRequests_offsetsOk name dateStr summary sources)
      (createMeetingDocRequests_textsPos name dateStr summary sources)).1
  · simp only [createMeetingDocRequests, insertedTexts, insertTexts, List.cons_append,
      List.nil_append, List.map_cons, List.cons.injEq, true_and]
    simpa [insertedTexts] using sourceRequests_insertTexts (sourcesList sources) _
  · have hk : ("Key Takeaways\n\n" : String).length = 15 := rfl
    have ha : ("Action Items\n\n" : String).length = 14 := rfl
    have hp : ("Professional Summary\n\n" : String).length = 22 := rfl
    have hs : ("Sources\n\n" : String).length = 9 := rfl
    simp only [createMeetingDocRequests, stylesOk, List.cons_append, List.nil_append,
      List.append_eq, sourceRequests_stylesOk, Bool.and_true, Bool.and_eq_true,
      decide_eq_true_eq]
    all_goals omega

/-! ### Data model of the research pipeline

`ExaSearchResult`, `ExaPersonInfo` and `PersonSummary` mirror the
TypeScript interfaces; optional fields become `Option`.  External HTTP
calls are modelled by explicit outcome values passed to the embedded
functions. -/

structure ExaSearchResult where
  title : String
  url : String
  publishedDate : Option String
  author : Option String
  summary : String
  text : String
  deriving DecidableEq, Repr

structure ExaPersonInfo where
  name : String
  searchResults : List ExaSearchResult
  error : Option String := none
  deriving DecidableEq, Repr

structure PersonSummary where
  name : String
  summary : String
  sources : Option (List (String × String)) := none
  error : Option String := none
  deriving DecidableEq, Repr

instance : Inhabited ExaPersonInfo := ⟨⟨"", [], none⟩⟩

instance : Inhabited PersonSummary := ⟨⟨"", "", none, none⟩⟩

/-! ### The exa search route (`src/app/api/exa/search/route.ts`) -/

/-- A raw result from the api.exa.ai provider. -/
structure ExaApiResult where
  title : String
  url : String
  publishedDate : Option String
  author : Option String
  text : String
  summary : String
  deriving DecidableEq, Repr

/-- How the api.exa.ai provider call can end: a successful response, a
non-ok HTTP response, or a thrown error. -/
inductive ProviderOutcome where
  | ok (results : List ExaApiResult)
  | httpError (status : Nat) (body : String)
  | threw
  deriving DecidableEq, Repr

/-- The request body the route sends to api.exa.ai. -/
structure ExaSearchRequest where
  query : String
  numResults : Nat
  searchType : String
  deriving DecidableEq, Repr

/-- A JSON response of the route: `NextResponse.json(payload)` (status 200)
or `NextResponse.json({ error }, { status })`. -/
inductive RouteResponse where
  | jsonOk (info : ExaPersonInfo)
  | jsonError (status : Nat) (error : String)
  deriving DecidableEq, Repr

/-- The exa search route handler `POST`: given the parsed `name`, the
`EXA_API_KEY` environment variable and the provider outcome, it returns
the list of requests it issued to api.exa.ai together with its response.
With no API key it answers 500 without calling the provider; otherwise it
issues exactly one request and projects the provider's results field by
field. -/
def exaSearchRoutePOST (name : String) (apiKey : Option String)
    (provider : ProviderOutcome) : List ExaSearchRequest × RouteResponse :=
  match apiKey with
  | none => ([], RouteResponse.jsonError 500 "API key not configured")
  | some _ =>
    let req : ExaSearchRequest :=
      { query := name ++ " professional background experience career",
        numResults := 5, searchType := "keyword" }
    match provider with
    | ProviderOutcome.ok results =>
        ([req], RouteResponse.jsonOk
          { name := name,
            searchResults := results.map (fun r =>
              { title := r.title, url := r.url, publishedDate := r.publishedDate,
                author := r.author, summary := r.summary, text := r.text }),
            error := none })
    | ProviderOutcome.httpError status body =>
        ([req], RouteResponse.jsonError status ("Exa API error: " ++ body))
    | ProviderOutcome.threw =>
        ([req], RouteResponse.jsonError 500 "Failed to make Exa API request")

/-! ### The exa service (`searchPerson`) -/

/-- How a `fetch` awaited by a service function can end: an ok response
with parsed data, a non-ok response with status, statusText and body text,
or a thrown value (`some msg` for an `Error` with that message, `none` for
a non-`Error` throw). -/
inductive FetchOutcome (α : Type) where
  | ok (data : α)
  | httpError (status : Nat) (statusText : String) (body : String)
  | threw (errorMsg : Option String)
  deriving DecidableEq, Repr

/-- `searchPerson`: one fetch of the local search route; on an ok response
it returns the parsed data unchanged; on a non-ok response it throws and
catches `API error: <body>` (the inner `throw new Error(jsonError.error |…|)`
sits inside its own `try`, so its `catch` always rethrows with the raw
body); on a thrown value it returns the error message, or the fallback
`Failed to search for person` for a non-`Error` throw.  Every failure is
reported as a value with `searchResults := []` and the input name. -/
def searchPerson (name : String) (resp : FetchOutcome ExaPersonInfo) : ExaPersonInfo :=
  match resp with
  | FetchOutcome.ok data => data
  | FetchOutcome.httpError _ _ body =>
      { name := name, searchResults := [], error := some ("API error: " ++ body) }
  | FetchOutcome.threw m =>
      { name := name, searchResults := [],
        error := some (m.getD "Failed to search for person") }

/-- How the route's response arrives at `searchPerson`'s `fetch`: an ok
JSON response delivers the parsed info, an error response delivers the
serialized error body with its status. -/
def routeFetchOutcome : RouteResponse → FetchOutcome ExaPersonInfo
  | RouteResponse.jsonOk info => FetchOutcome.ok info
  | RouteResponse.jsonError status err =>
      FetchOutcome.httpError status "" ("\x7b\"error\":\"" ++ err ++ "\"\x7d")

/-! ### The summary route (`src/app/page.tsx` POST) and the summary
service (`generatePersonSummary`) -/

/-- How the OpenAI chat-completions call can end. `errorMsg` models
`errorData?.error?.message` of a non-ok response. -/
inductive OpenAIOutcome where
  | ok (content : String)
  | httpError (status : Nat) (statusText : String) (errorMsg : Option String)
  | threw (errorMsg : Option String)
  deriving DecidableEq, Repr

/-- A JSON response of the summary route. -/
inductive SummaryRouteResponse where
  | jsonOk (s : PersonSummary)
  | jsonError (status : Nat) (error : String)
  deriving DecidableEq, Repr

/-- The numbered source lines of the summary prompt:
`[Source <i+1>] <title> (<url>)`, in the order of `searchResults`. -/
def promptSourceLines (personInfo : ExaPersonInfo) : List String :=
  (personInfo.searchResults.enum).map
    (fun p => "[Source " ++ toString (p.1 + 1) ++ "] " ++ p.2.title ++ " (" ++ p.2.url ++ ")")

/-- The numbered text blocks of the summary prompt:
`[Source <i+1>]\n<text>`, in the order of `searchResults`. -/
def promptTextBlocks (personInfo : ExaPersonInfo) : List String :=
  (personInfo.searchResults.enum).map
    (fun p => "[Source " ++ toString (p.1 + 1) ++ "]\n" ++ p.2.text)

/-- The sources array of the summary route's response:
`searchResults.map(result => ({ title, url }))`. -/
def summaryRouteSourcesArray (personInfo : ExaPersonInfo) : List (String × String) :=
  personInfo.searchResults.map (fun r => (r.title, r.url))

/-- The summary route handler `POST`: on a successful model call it echoes
`personInfo.name`, returns the model content as the summary and the
projected sources array; on a failed call it answers 500 with the error
message (the code's `errorData?.error?.message |…| OpenAI API error: …`
fallback chain). -/
def summaryRoutePOST (personInfo : ExaPersonInfo) (llm : OpenAIOutcome) :
    SummaryRouteResponse :=
  match llm with
  | OpenAIOutcome.ok content =>
      SummaryRouteResponse.jsonOk
        { name := personInfo.name, summary := content,
          sources := some (summaryRouteSourcesArray personInfo), error := none }
  | OpenAIOutcome.httpError status statusText errorMsg =>
      SummaryRouteResponse.jsonError 500
        (match errorMsg with
          | some e =>
              if e = "" then "OpenAI API error: " ++ toString status ++ " " ++ statusText
              else e
          | none => "OpenAI API error: " ++ toString status ++ " " ++ statusText)
  | OpenAIOutcome.threw m =>
      SummaryRouteResponse.jsonError 500 (m.getD "Failed to generate summary")

/-- How a `fetch` awaited by `generatePersonSummary` can end. `errField`
models `errorData?.error` of the parsed non-ok response body (`none` when
the body is not JSON). -/
inductive SummaryFetchOutcome where
  | ok (data : PersonSummary)
  | httpError (status : Nat) (statusText : String) (errField : Option String)
  | threw (errorMsg : Option String)
  deriving DecidableEq, Repr

/-- `generatePersonSummary`: one fetch of the summary route; the parsed
data on an ok response; otherwise an error value keeping the input name
with an empty summary and message `errorData?.error |…| API error:
<status> <statusText>`, or the thrown error's message, or the fallback
`Failed to generate summary`. -/
def generatePersonSummary (personInfo : ExaPersonInfo) (resp : SummaryFetchOutcome) :
    PersonSummary :=
  match resp with
  | SummaryFetchOutcome.ok data => data
  | SummaryFetchOutcome.httpError status statusText errField =>
      let msg := match errField with
        | some e =>
            if e = "" then "API error: " ++ toString status ++ " " ++ statusText else e
        | none => "API error: " ++ toString status ++ " " ++ statusText
      { name := personInfo.name, summary := "", sources := none, error := some msg }
  | SummaryFetchOutcome.threw m =>
      { name := personInfo.name, summary := "", sources := none,
        error := some (m.getD "Failed to generate summary") }

/-- How the summary route's response arrives at `generatePersonSummary`:
an error response's body parses to `{ error }`, so `errorData?.error` is
the route's error message. -/
def summaryRouteFetchOutcome : SummaryRouteResponse → SummaryFetchOutcome
  | SummaryRouteResponse.jsonOk s => SummaryFetchOutcome.ok s
  | SummaryRouteResponse.jsonError status err =>
      SummaryFetchOutcome.httpError status "" (some err)

/-! ### `handleContinue` (`Calendar.tsx`): the sequential pipeline as a trace

`handleContinue` is an async function whose awaits are strictly
sequential, so its behaviour is a deterministic list of events in temporal
order.  The two external calls are abstracted by oracle functions
`searchO` (what `await searchPerson(name)` resolves to) and `summaryO`
(what `await generatePersonSummary(info)` resolves to); both embedded
functions catch every failure and resolve, so the `catch` branch of
`handleContinue` is dead and the trace below is total. -/

inductive Stage where
  | searching
  | analyzing
  | summarizing
  deriving DecidableEq, Repr

structure LoadingState where
  stage : Stage
  person : String
  progress : Nat
  total : Nat
  deriving DecidableEq, Repr

inductive TraceEv where
  | setLoading (ls : LoadingState)
  | delayMs (ms : Nat)
  | searchCall (name : String)
  | summaryCall (arg : ExaPersonInfo)
  | setSearchResults (rs : List ExaPersonInfo)
  | setSummaries (ss : List PersonSummary)
  | clearLoading
  deriving DecidableEq, Repr

/-- The body of `for (let i = 0; i < attendees.length; i++)` in the search
phase: set the loading state, wait 100 ms, await `searchPerson`, push the
result. -/
def searchLoop (searchO : String → ExaPersonInfo) (total : Nat) :
    List String → Nat → List TraceEv × List ExaPersonInfo
  | [], _ => ([], [])
  | a :: rest, i =>
    let step := searchLoop searchO total rest (i + 1)
    (TraceEv.setLoading ⟨Stage.searching, a, i, total⟩ :: TraceEv.delayMs 100 ::
       TraceEv.searchCall a :: step.1,
     searchO a :: step.2)

/-- The body of `for (let i = 0; i < results.length; i++)` in the summary
phase: set the loading state, wait 100 ms, await `generatePersonSummary`,
push the summary. -/
def summaryLoop (summaryO : ExaPersonInfo → PersonSummary) (total : Nat) :
    List ExaPersonInfo → Nat → List TraceEv × List PersonSummary
  | [], _ => ([], [])
  | r :: rest, i =>
    let step := summaryLoop summaryO total rest (i + 1)
    (TraceEv.setLoading ⟨Stage.summarizing, r.name, i, total⟩ :: TraceEv.delayMs 100 ::
       TraceEv.summaryCall r :: step.1,
     summaryO r :: step.2)

/-- `handleContinue` over the derived attendee names: its event trace, the
`results` array and the `summariesResults` array.  An empty selection
returns immediately. -/
def handleContinue (searchO : String → ExaPersonInfo)
    (summaryO : ExaPersonInfo → PersonSummary) (attendees : List String) :
    List TraceEv × List ExaPersonInfo × List PersonSummary :=
  match attendees with
  | [] => ([], [], [])
  | a0 :: rest =>
    let atts := a0 :: rest
    let n := atts.length
    let search := searchLoop searchO n atts 0
    let results := search.2
    let summar := summaryLoop summaryO results.length results 0
    let summaries := summar.2
    (TraceEv.setLoading ⟨Stage.searching, a0, 0, n⟩ ::
      (search.1 ++
        (TraceEv.setLoading ⟨Stage.searching, atts.getLastI, n, n⟩ ::
         TraceEv.delayMs 500 :: TraceEv.setSearchResults results ::
         TraceEv.setLoading ⟨Stage.summarizing, results.headI.name, 0, results.length⟩ ::
          (summar.1 ++
            [TraceEv.setLoading
               ⟨Stage.summarizing, results.getLastI.name, results.length, results.length⟩,
             TraceEv.delayMs 500, TraceEv.setSummaries summaries,
             TraceEv.delayMs 500, TraceEv.clearLoading]))),
     results, summaries)

/-! ### C2: the pipeline is strictly sequential with artificial delays -/

/-- Whether an event is an external research call. -/
def isCall : TraceEv → Bool
  | TraceEv.searchCall _ => true
  | TraceEv.summaryCall _ => true
  | _ => false

/-- The names passed to `searchPerson`, in trace order. -/
def searchCallNames : List TraceEv → List String
  | [] => []
  | TraceEv.searchCall a :: rest => a :: searchCallNames rest
  | _ :: rest => searchCallNames rest

/-- The infos passed to `generatePersonSummary`, in trace order. -/
def summaryCallArgs : List TraceEv → List ExaPersonInfo
  | [] => []
  | TraceEv.summaryCall r :: rest => r :: summaryCallArgs rest
  | _ :: rest => summaryCallArgs rest

theorem searchCallNames_append (xs ys : List TraceEv) :
    searchCallNames (xs ++ ys) = searchCallNames xs ++ searchCallNames ys := by
  induction xs with
  | nil => rfl
  | cons e rest ih => cases e <;> simp [searchCallNames, ih]

theorem summaryCallArgs_append (xs ys : List TraceEv) :
    summaryCallArgs (xs ++ ys) = summaryCallArgs xs ++ summaryCallArgs ys := by
  induction xs with
  | nil => rfl
  | cons e rest ih => cases e <;> simp [summaryCallArgs, ih]

/-- No search call occurs in the list. -/
def noSearchCall (t : List TraceEv) : Bool :=
  t.all (fun e => match e with | TraceEv.searchCall _ => false | _ => true)

/-- After the first summary call, no search call follows: the search phase
completes before the summary phase starts. -/
def phasesSeparated : List TraceEv → Bool
  | [] => true
  | TraceEv.summaryCall _ :: rest => noSearchCall rest
  | _ :: rest => phasesSeparated rest

/-- No summary call occurs in the list. -/
def noSummaryCall (t : List TraceEv) : Bool :=
  t.all (fun e => match e with | TraceEv.summaryCall _ => false | _ => true)

/-- Every marked event is immediately preceded by a `d` ms delay (`prev`
is the event before the list's first element). -/
def eventsAfterDelay (marked : TraceEv → Bool) (d : Nat) :
    Option TraceEv → List TraceEv → Bool
  | _, [] => true
  | prev, e :: rest =>
    (if marked e then prev == some (TraceEv.delayMs d) else true)
      && eventsAfterDelay marked d (some e) rest

/-- Every external call is immediately preceded by a 100 ms delay. -/
def callsAfterDelay : Option TraceEv → List TraceEv → Bool :=
  eventsAfterDelay isCall 100

/-- Whether an event ends a phase: publishing the search results,
publishing the summaries, or clearing the loading state. -/
def isPhaseEnd : TraceEv → Bool
  | TraceEv.setSearchResults _ => true
  | TraceEv.setSummaries _ => true
  | TraceEv.clearLoading => true
  | _ => false

/-- Every phase boundary is immediately preceded by a 500 ms delay. -/
def phaseEndsAfterDelay : Option TraceEv → List TraceEv → Bool :=
  eventsAfterDelay isPhaseEnd 500

/-- The last element of the list, or `prev` when the list is empty. -/
def lastOr (prev : Option TraceEv) : List TraceEv → Option TraceEv
  | [] => prev
  | e :: rest => lastOr (some e) rest

theorem eventsAfterDelay_append (marked : TraceEv → Bool) (d : Nat) :
    ∀ (xs ys : List TraceEv) (prev : Option TraceEv),
    eventsAfterDelay marked d prev (xs ++ ys)
      = (eventsAfterDelay marked d prev xs
          && eventsAfterDelay marked d (lastOr prev xs) ys) := by
  intro xs
  induction xs with
  | nil => intro ys prev; simp [eventsAfterDelay, lastOr]
  | cons x rest ih =>
    intro ys prev
    simp [eventsAfterDelay, lastOr, ih, Bool.and_assoc]

theorem searchLoop_snd (searchO : String → ExaPersonInfo) (total : Nat) :
    ∀ (l : List String) (i : Nat), (searchLoop searchO total l i).2 = l.map searchO := by
  intro l
  induction l with
  | nil => intro i; rfl
  | cons a rest ih => intro i; simp [searchLoop, ih]

theorem summaryLoop_snd (summaryO : ExaPersonInfo → PersonSummary) (total : Nat) :
    ∀ (l : List ExaPersonInfo) (i : Nat),
    (summaryLoop summaryO total l i).2 = l.map summaryO := by
  intro l
  induction l with
  | nil => intro i; rfl
  | cons r rest ih => intro i; simp [summaryLoop, ih]

theorem searchLoop_callNames (searchO : String → ExaPersonInfo) (total : Nat) :
    ∀ (l : List String) (i : Nat),
    searchCallNames (searchLoop searchO total l i).1 = l := by
  intro l
  induction l with
  | nil => intro i; rfl
  | cons a rest ih => intro i; simp [searchLoop, searchCallNames, ih]

theorem searchLoop_noSummaryCall (searchO : String → ExaPersonInfo) (total : Nat) :
    ∀ (l : List String) (i : Nat),
    noSummaryCall (searchLoop searchO total l i).1 = true := by
  intro l
  induction l with
  | nil => intro i; rfl
  | cons a rest ih => intro i; simp [searchLoop, noSummaryCall] at ih ⊢; exact ih _

theorem summaryLoop_callArgs (summaryO : ExaPersonInfo → PersonSummary) (total : Nat) :
    ∀ (l : List ExaPersonInfo) (i : Nat),
    summaryCallArgs (summaryLoop summaryO total l i).1 = l := by
  intro l
  induction l with
  | nil => intro i; rfl
  | cons r rest ih => intro i; simp [summaryLoop, summaryCallArgs, ih]

theorem summaryLoop_noSearchCall (summaryO : ExaPersonInfo → PersonSummary) (total : Nat) :
    ∀ (l : List ExaPersonInfo) (i : Nat),
    noSearchCall (summaryLoop summaryO total l i).1 = true := by
  intro l
  induction l with
  | nil => intro i; rfl
  | cons r rest ih => intro i; simp [summaryLoop, noSearchCall] at ih ⊢; exact ih _

theorem searchCallNames_of_noSearchCall (t : List TraceEv) :
    noSearchCall t = true → searchCallNames t = [] := by
  induction t with
  | nil => intro _; rfl
  | cons e rest ih =>
    intro h
    simp only [noSearchCall, List.all_cons, Bool.and_eq_true] at h
    cases e <;> simp_all [searchCallNames, noSearchCall]

theorem summaryCallArgs_of_noSummaryCall (t : List TraceEv) :
    noSummaryCall t = true → summaryCallArgs t = [] := by
  induction t with
  | nil => intro _; rfl
  | cons e rest ih =>
    intro h
    simp only [noSummaryCall, List.all_cons, Bool.and_eq_true] at h
    cases e <;> simp_all [summaryCallArgs, noSummaryCall]

theorem phasesSeparated_append_of_noSummary (xs : List TraceEv) :
    ∀ ys : List TraceEv, noSummaryCall xs = true →
    phasesSeparated (xs ++ ys) = phasesSeparated ys := by
  induction xs with
  | nil => intro ys _; rfl
  | cons e rest ih =>
    intro ys h
    simp only [noSummaryCall, List.all_cons, Bool.and_eq_true] at h
    cases e <;> simp_all [phasesSeparated, noSummaryCall]

theorem phasesSeparated_of_noSearch (t : List TraceEv) :
    noSearchCall t = true → phasesSeparated t = true := by
  induction t with
  | nil => intro _; rfl
  | cons e rest ih =>
    intro h
    simp only [noSearchCall, List.all_cons, Bool.and_eq_true] at h
    cases e <;> simp_all [phasesSeparated, noSearchCall]

theorem noSearchCall_append (xs ys : List TraceEv) :
    noSearchCall (xs ++ ys) = (noSearchCall xs && noSearchCall ys) := by
  simp [noSearchCall, List.all_append]

theorem searchLoop_callsAfterDelay (searchO : String → ExaPersonInfo) (total : Nat) :
    ∀ (l : List String) (i : Nat) (prev : Option TraceEv),
    eventsAfterDelay isCall 100 prev (searchLoop searchO total l i).1 = true := by
  intro l
  induction l with
  | nil => intro i prev; rfl
  | cons a rest ih => intro i prev; simp [searchLoop, eventsAfterDelay, isCall, ih]

theorem summaryLoop_callsAfterDelay (summaryO : ExaPersonInfo → PersonSummary) (total : Nat) :
    ∀ (l : List ExaPersonInfo) (i : Nat) (prev : Option TraceEv),
    eventsAfterDelay isCall 100 prev (summaryLoop summaryO total l i).1 = true := by
  intro l
  induction l with
  | nil => intro i prev; rfl
  | cons r rest ih => intro i prev; simp [summaryLoop, eventsAfterDelay, isCall, ih]

theorem searchLoop_phaseDelays (searchO : String → ExaPersonInfo) (total : Nat) :
    ∀ (l : List String) (i : Nat) (prev : Option TraceEv),
    eventsAfterDelay isPhaseEnd 500 prev (searchLoop searchO total l i).1 = true := by
  intro l
  induction l with
  | nil => intro i prev; rfl
  | cons a rest ih => intro i prev; simp [searchLoop, eventsAfterDelay, isPhaseEnd, ih]

theorem summaryLoop_phaseDelays (summaryO : ExaPersonInfo → PersonSummary) (total : Nat) :
    ∀ (l : List ExaPersonInfo) (i : Nat) (prev : Option TraceEv),
    eventsAfterDelay isPhaseEnd 500 prev (summaryLoop summaryO total l i).1 = true := by
  intro l
  induction l with
  | nil => intro i prev; rfl
  | cons r rest ih => intro i prev; simp [summaryLoop, eventsAfterDelay, isPhaseEnd, ih]

/-- The shape of every nonempty `handleContinue` trace, with the two loop
segments abstract. -/
def traceShape (ev0 ls1 ls2 ls3 : LoadingState) (rs : List ExaPersonInfo)
    (ss : List PersonSummary) (A B : List TraceEv) : List TraceEv :=
  TraceEv.setLoading ev0 ::
    (A ++
      (TraceEv.setLoading ls1 :: TraceEv.delayMs 500 :: TraceEv.setSearchResults rs ::
       TraceEv.setLoading ls2 ::
        (B ++
          [TraceEv.setLoading ls3, TraceEv.delayMs 500, TraceEv.setSummaries ss,
           TraceEv.delayMs 500, TraceEv.clearLoading])))

theorem phasesSeparated_traceShape (ev0 ls1 ls2 ls3 : LoadingState)
    (rs : List ExaPersonInfo) (ss : List PersonSummary) (A B : List TraceEv)
    (hA : noSummaryCall A = true) (hB : noSearchCall B = true) :
    phasesSeparated (traceShape ev0 ls1 ls2 ls3 rs ss A B) = true := by
  simp only [traceShape, phasesSeparated]
  rw [phasesSeparated_append_of_noSummary _ _ hA]
  simp only [phasesSeparated]
  apply phasesSeparated_of_noSearch
  rw [noSearchCall_append, hB]
  rfl

theorem callsAfterDelay_traceShape (ev0 ls1 ls2 ls3 : LoadingState)
    (rs : List ExaPersonInfo) (ss : List PersonSummary) (A B : List TraceEv)
    (hA : ∀ prev, eventsAfterDelay isCall 100 prev A = true)
    (hB : ∀ prev, eventsAfterDelay isCall 100 prev B = true) :
    callsAfterDelay none (traceShape ev0 ls1 ls2 ls3 rs ss A B) = true := by
  simp [traceShape, callsAfterDelay, eventsAfterDelay_append, eventsAfterDelay,
    isCall, hA, hB]

theorem phaseEndsAfterDelay_traceShape (ev0 ls1 ls2 ls3 : LoadingState)
    (rs : List ExaPersonInfo) (ss : List PersonSummary) (A B : List TraceEv)
    (hA : ∀ prev, eventsAfterDelay isPhaseEnd 500 prev A = true)
    (hB : ∀ prev, eventsAfterDelay isPhaseEnd 500 prev B = true) :
    phaseEndsAfterDelay none (traceShape ev0 ls1 ls2 ls3 rs ss A B) = true := by
  simp [traceShape, phaseEndsAfterDelay, eventsAfterDelay_append, eventsAfterDelay,
    isPhaseEnd, hA, hB]

theorem searchCallNames_traceShape (ev0 ls1 ls2 ls3 : LoadingState)
    (rs : List ExaPersonInfo) (ss : List PersonSummary) (A B : List TraceEv)
    (hB : noSearchCall B = true) :
    searchCallNames (traceShape ev0 ls1 ls2 ls3 rs ss A B) = searchCallNames A := by
  simp [traceShape, searchCallNames_append, searchCallNames,
    searchCallNames_of_noSearchCall B hB]

theorem summaryCallArgs_traceShape (ev0 ls1 ls2 ls3 : LoadingState)
    (rs : List ExaPersonInfo) (ss : List PersonSummary) (A B : List TraceEv)
    (hA : noSummaryCall A = true) :
    summaryCallArgs (traceShape ev0 ls1 ls2 ls3 rs ss A B) = summaryCallArgs B := by
  simp [traceShape, summaryCallArgs_append, summaryCallArgs,
    summaryCallArgs_of_noSummaryCall A hA]

/-- A nonempty run of `handleContinue` produces exactly a `traceShape`. -/
theorem handleContinue_trace_eq (searchO : String → ExaPersonInfo)
    (summaryO : ExaPersonInfo → PersonSummary) (a0 : String) (rest : List String) :
    (handleContinue searchO summaryO (a0 :: rest)).1
      = traceShape ⟨Stage.searching, a0, 0, (a0 :: rest).length⟩
          ⟨Stage.searching, (a0 :: rest).getLastI, (a0 :: rest).length,
            (a0 :: rest).length⟩
          ⟨Stage.summarizing,
            ((a0 :: rest).map searchO).headI.name, 0, ((a0 :: rest).map searchO).length⟩
          ⟨Stage.summarizing, ((a0 :: rest).map searchO).getLastI.name,
            ((a0 :: rest).map searchO).length, ((a0 :: rest).map searchO).length⟩
          ((a0 :: rest).map searchO) (((a0 :: rest).map searchO).map summaryO)
          (searchLoop searchO (a0 :: rest).length (a0 :: rest) 0).1
          (summaryLoop summaryO ((a0 :: rest).map searchO).length
            ((a0 :: rest).map searchO) 0).1 := by
  simp only [handleContinue, traceShape, searchLoop_snd, summaryLoop_snd]

/-- The `results` array of `handleContinue` is `searchPerson`'s value on
each attendee, in selection order. -/
theorem handleContinue_results (searchO : String → ExaPersonInfo)
    (summaryO : ExaPersonInfo → PersonSummary) (attendees : List String) :
    (handleContinue searchO summaryO attendees).2.1 = attendees.map searchO := by
  cases attendees with
  | nil => rfl
  | cons a0 rest => simp [handleContinue, searchLoop_snd]

/-- The `summariesResults` array of `handleContinue` is
`generatePersonSummary`'s value on each search result, in order. -/
theorem handleContinue_summaries (searchO : String → ExaPersonInfo)
    (summaryO : ExaPersonInfo → PersonSummary) (attendees : List String) :
    (handleContinue searchO summaryO attendees).2.2
      = (attendees.map searchO).map summaryO := by
  cases attendees with
  | nil => rfl
  | cons a0 rest => simp [handleContinue, searchLoop_snd, summaryLoop_snd]

/-- C2: for every run of `handleContinue`, the pipeline is strictly
sequential with artificial delays: the trace issues the people searches
one at a time in selection order (`searchCallNames … = attendees`); the
summary requests are issued one at a time in the same order, each on the
result of the corresponding search (`summaryCallArgs … = attendees.map
searchO`); no summary call occurs until every search call has completed
(`phasesSeparated`); every per-person step is immediately preceded by a
100 ms delay (`callsAfterDelay`); and every phase boundary is immediately
preceded by a 500 ms delay (`phaseEndsAfterDelay`). -/
theorem handleContinue_sequential (searchO : String → ExaPersonInfo)
    (summaryO : ExaPersonInfo → PersonSummary) (attendees : List String) :
    searchCallNames (handleContinue searchO summaryO attendees).1 = attendees ∧
    summaryCallArgs (handleContinue searchO summaryO attendees).1
      = attendees.map searchO ∧
    phasesSeparated (handleContinue searchO summaryO attendees).1 = true ∧
    callsAfterDelay none (handleContinue searchO summaryO attendees).1 = true ∧
    phaseEndsAfterDelay none (handleContinue searchO summaryO attendees).1 = true := by
  cases attendees with
  | nil => exact ⟨rfl, rfl, rfl, rfl, rfl⟩
  | cons a0 rest =>
    rw [handleContinue_trace_eq]
    refine ⟨?_, ?_, ?_, ?_, ?_⟩
    · rw [searchCallNames_traceShape _ _ _ _ _ _ _ _
        (summaryLoop_noSearchCall summaryO _ _ _)]
      exact searchLoop_callNames searchO _ _ _
    · rw [summaryCallArgs_traceShape _ _ _ _ _ _ _ _
        (searchLoop_noSummaryCall searchO _ _ _)]
      exact summaryLoop_callArgs summaryO _ _ _
    · exact phasesSeparated_traceShape _ _ _ _ _ _ _ _
        (searchLoop_noSummaryCall searchO _ _ _)
        (summaryLoop_noSearchCall summaryO _ _ _)
    · exact callsAfterDelay_traceShape _ _ _ _ _ _ _ _
        (fun prev => searchLoop_callsAfterDelay searchO _ _ _ prev)
        (fun prev => summaryLoop_callsAfterDelay summaryO _ _ _ prev)
    · exact phaseEndsAfterDelay_traceShape _ _ _ _ _ _ _ _
        (fun prev => searchLoop_phaseDelays searchO _ _ _ prev)
        (fun prev => summaryLoop_phaseDelays summaryO _ _ _ prev)

/-! ### C3: names are preserved end to end -/

/-- C3: the pipeline produces exactly one result and one briefing per
attendee with names preserved: `searchPerson` through the exa route
returns the input name in every outcome, also when its own fetch throws;
`generatePersonSummary` through the summary route returns
`personInfo.name` in every outcome, also when its own fetch throws; and
for every attendee list the `handleContinue` loops build a `results`
array and a `summaries` array of the selection's length whose `i`-th
names equal the `i`-th attendee's name. -/
theorem pipeline_preserves_names :
    (∀ (name : String) (apiKey : Option String) (provider : ProviderOutcome),
      (searchPerson name
        (routeFetchOutcome (exaSearchRoutePOST name apiKey provider).2)).name = name) ∧
    (∀ (name : String) (m : Option String),
      (searchPerson name (FetchOutcome.threw m)).name = name) ∧
    (∀ (p : ExaPersonInfo) (llm : OpenAIOutcome),
      (generatePersonSummary p
        (summaryRouteFetchOutcome (summaryRoutePOST p llm))).name = p.name) ∧
    (∀ (p : ExaPersonInfo) (m : Option String),
      (generatePersonSummary p (SummaryFetchOutcome.threw m)).name = p.name) ∧
    (∀ (searchO : String → ExaPersonInfo) (summaryO : ExaPersonInfo → PersonSummary)
       (attendees : List String),
      (∀ a, (searchO a).name = a) → (∀ q, (summaryO q).name = q.name) →
      ((handleContinue searchO summaryO attendees).2.1.length = attendees.length ∧
       (handleContinue searchO summaryO attendees).2.2.length = attendees.length ∧
       (handleContinue searchO summaryO attendees).2.1.map ExaPersonInfo.name
         = attendees ∧
       (handleContinue searchO summaryO attendees).2.2.map PersonSummary.name
         = attendees)) := by
  refine ⟨?_, ?_, ?_, ?_, ?_⟩
  · intro name apiKey provider
    cases apiKey <;> cases provider <;>
      simp [exaSearchRoutePOST, routeFetchOutcome, searchPerson]
  · intro name m; rfl
  · intro p llm
    cases llm with
    | ok content => rfl
    | httpError status statusText errorMsg =>
      cases errorMsg <;>
        simp [summaryRoutePOST, summaryRouteFetchOutcome, generatePersonSummary]
    | threw m => rfl
  · intro p m; rfl
  · intro searchO summaryO attendees h1 h2
    rw [handleContinue_results, handleContinue_summaries]
    refine ⟨by simp, by simp, ?_, ?_⟩
    · simp [List.map_map, Function.comp_def, h1]
    · simp [List.map_map, Function.comp_def, h1, h2]

/-! ### C4: no external call is ever retried -/

/-- One event per HTTP request the code issues. -/
inductive FetchEv where
  | localSearchRoute (name : String)
  | exaProvider (req : ExaSearchRequest)
  | summaryRoute (personName : String)
  deriving DecidableEq, Repr

/-- `searchPerson` with the requests it issues: the body performs a single
`fetch` of the local search route; each outcome branch returns without
fetching again. -/
def searchPersonRun (name : String) (resp : FetchOutcome ExaPersonInfo) :
    List FetchEv × ExaPersonInfo :=
  match resp with
  | FetchOutcome.ok data => ([FetchEv.localSearchRoute name], data)
  | FetchOutcome.httpError status statusText body =>
      ([FetchEv.localSearchRoute name],
        searchPerson name (FetchOutcome.httpError status statusText body))
  | FetchOutcome.threw m =>
      ([FetchEv.localSearchRoute name], searchPerson name (FetchOutcome.threw m))

/-- `generatePersonSummary` with the requests it issues: a single `fetch`
of the summary route; each outcome branch returns without fetching
again. -/
def generatePersonSummaryRun (personInfo : ExaPersonInfo)
    (resp : SummaryFetchOutcome) : List FetchEv × PersonSummary :=
  match resp with
  | SummaryFetchOutcome.ok data => ([FetchEv.summaryRoute personInfo.name], data)
  | SummaryFetchOutcome.httpError status statusText errField =>
      ([FetchEv.summaryRoute personInfo.name],
        generatePersonSummary personInfo
          (SummaryFetchOutcome.httpError status statusText errField))
  | SummaryFetchOutcome.threw m =>
      ([FetchEv.summaryRoute personInfo.name],
        generatePersonSummary personInfo (SummaryFetchOutcome.threw m))

/-- C4: no external call is ever retried.  Each `searchPerson` invocation
issues exactly one fetch of the local search route and, on failure,
returns the error as a value computed by `searchPerson`; each invocation
of the exa search route handler issues at most one request to the
api.exa.ai provider (none when the API key is missing); and each
`generatePersonSummary` invocation issues exactly one fetch of the
summary route, returning failures as values computed by
`generatePersonSummary`. -/
theorem no_external_call_retried :
    (∀ (name : String) (resp : FetchOutcome ExaPersonInfo),
      (searchPersonRun name resp).1 = [FetchEv.localSearchRoute name] ∧
      (searchPersonRun name resp).2 = searchPerson name resp) ∧
    (∀ (name : String) (apiKey : Option String) (provider : ProviderOutcome),
      (exaSearchRoutePOST name apiKey provider).1.length ≤ 1) ∧
    (∀ (personInfo : ExaPersonInfo) (resp : SummaryFetchOutcome),
      (generatePersonSummaryRun personInfo resp).1
        = [FetchEv.summaryRoute personInfo.name] ∧
      (generatePersonSummaryRun personInfo resp).2
        = generatePersonSummary personInfo resp) := by
  refine ⟨?_, ?_, ?_⟩
  · intro name resp
    cases resp <;> exact ⟨rfl, rfl⟩
  · intro name apiKey provider
    cases apiKey <;> cases provider <;> simp [exaSearchRoutePOST]
  · intro personInfo resp
    cases resp <;> exact ⟨rfl, rfl⟩

/-! ### C5: progress reporting is bounded and monotone -/

/-- The `setLoadingState` payloads of a trace, in order. -/
def loadingUpdates : List TraceEv → List LoadingState
  | [] => []
  | TraceEv.setLoading ls :: rest => ls :: loadingUpdates rest
  | _ :: rest => loadingUpdates rest

/-- The progress values reported for one stage, in order. -/
def stageProgress (st : Stage) : List TraceEv → List Nat
  | [] => []
  | TraceEv.setLoading ls :: rest =>
      if ls.stage == st then ls.progress :: stageProgress st rest
      else stageProgress st rest
  | _ :: rest => stageProgress st rest

/-- `[i, i+1, …, i+n-1]`. -/
def natRangeFrom (i n : Nat) : List Nat := (List.range n).map (fun k => i + k)

/-- The progress-bar target of a loading state:
`(progress / total) * 100`. -/
def progressTarget (ls : LoadingState) : ℚ := (ls.progress : ℚ) / (ls.total : ℚ) * 100

/-- The `ExaResults` progress-width effect: a present loading state
replaces the previous width only when the target is strictly larger
(`targetWidth > prev ? targetWidth : prev`); a cleared loading state
resets the width to 0. -/
def widthStep (w : ℚ) (ls : Option LoadingState) : ℚ :=
  match ls with
  | none => 0
  | some ls => if w < progressTarget ls then progressTarget ls else w

theorem loadingUpdates_append (xs ys : List TraceEv) :
    loadingUpdates (xs ++ ys) = loadingUpdates xs ++ loadingUpdates ys := by
  induction xs with
  | nil => rfl
  | cons e rest ih => cases e <;> simp [loadingUpdates, ih]

theorem stageProgress_append (st : Stage) (xs ys : List TraceEv) :
    stageProgress st (xs ++ ys) = stageProgress st xs ++ stageProgress st ys := by
  induction xs with
  | nil => rfl
  | cons e rest ih =>
    cases e <;> simp only [List.cons_append, stageProgress, List.append_eq, ih]
    split <;> simp

theorem natRangeFrom_succ (i n : Nat) :
    natRangeFrom i (n + 1) = i :: natRangeFrom (i + 1) n := by
  simp only [natRangeFrom, List.range_succ_eq_map, List.map_cons, List.map_map,
    Nat.add_zero]
  congr 1
  apply List.map_congr_left
  intro k _
  simp only [Function.comp_def]
  omega

theorem searchLoop_loadingUpdates (searchO : String → ExaPersonInfo) (total : Nat) :
    ∀ (l : List String) (i : Nat),
    loadingUpdates (searchLoop searchO total l i).1
      = (l.zip (natRangeFrom i l.length)).map
          (fun p => ⟨Stage.searching, p.1, p.2, total⟩) := by
  intro l
  induction l with
  | nil => intro i; rfl
  | cons a rest ih =>
    intro i
    rw [List.length_cons, natRangeFrom_succ]
    simp [searchLoop, loadingUpdates, ih]

theorem summaryLoop_loadingUpdates (summaryO : ExaPersonInfo → PersonSummary)
    (total : Nat) :
    ∀ (l : List ExaPersonInfo) (i : Nat),
    loadingUpdates (summaryLoop summaryO total l i).1
      = (l.zip (natRangeFrom i l.length)).map
          (fun p => ⟨Stage.summarizing, p.1.name, p.2, total⟩) := by
  intro l
  induction l with
  | nil => intro i; rfl
  | cons r rest ih =>
    intro i
    rw [List.length_cons, natRangeFrom_succ]
    simp [summaryLoop, loadingUpdates, ih]

theorem stageProgress_searchLoop (searchO : String → ExaPersonInfo) (total : Nat) :
    ∀ (l : List String) (i : Nat),
    stageProgress Stage.searching (searchLoop searchO total l i).1
      = natRangeFrom i l.length := by
  intro l
  induction l with
  | nil => intro i; rfl
  | cons a rest ih =>
    intro i
    rw [List.length_cons, natRangeFrom_succ]
    simp [searchLoop, stageProgress, ih]

theorem stageProgress_searchLoop_summarizing (searchO : String → ExaPersonInfo)
    (total : Nat) :
    ∀ (l : List String) (i : Nat),
    stageProgress Stage.summarizing (searchLoop searchO total l i).1 = [] := by
  intro l
  induction l with
  | nil => intro i; rfl
  | cons a rest ih => intro i; simp [searchLoop, stageProgress, ih]

theorem stageProgress_summaryLoop (summaryO : ExaPersonInfo → PersonSummary)
    (total : Nat) :
    ∀ (l : List ExaPersonInfo) (i : Nat),
    stageProgress Stage.summarizing (summaryLoop summaryO total l i).1
      = natRangeFrom i l.length := by
  intro l
  induction l with
  | nil => intro i; rfl
  | cons r rest ih =>
    intro i
    rw [List.length_cons, natRangeFrom_succ]
    simp [summaryLoop, stageProgress, ih]

theorem stageProgress_summaryLoop_searching (summaryO : ExaPersonInfo → PersonSummary)
    (total : Nat) :
    ∀ (l : List ExaPersonInfo) (i : Nat),
    stageProgress Stage.searching (summaryLoop summaryO total l i).1 = [] := by
  intro l
  induction l with
  | nil => intro i; rfl
  | cons r rest ih => intro i; simp [summaryLoop, stageProgress, ih]

theorem natRangeFrom_mem {i n x : Nat} (h : x ∈ natRangeFrom i n) :
    i ≤ x ∧ x < i + n := by
  simp only [natRangeFrom, List.mem_map, List.mem_range] at h
  obtain ⟨k, hk, rfl⟩ := h
  omega

theorem natRangeFrom_pairwise (i n : Nat) :
    List.Pairwise (· ≤ ·) (natRangeFrom i n) := by
  refine List.Pairwise.map _ ?_ (List.pairwise_lt_range n)
  intro a b hab
  omega

/-- The progress list of a whole phase: the initial 0, one update per
item, and the final total. -/
theorem phase_progress_pairwise (n : Nat) :
    List.Pairwise (· ≤ ·) (0 :: (natRangeFrom 0 n ++ [n])) := by
  refine List.pairwise_cons.2 ⟨?_, ?_⟩
  · intro x hx
    exact Nat.zero_le x
  · refine (List.pairwise_append).2 ⟨natRangeFrom_pairwise 0 n, ?_, ?_⟩
    · simp
    · intro a ha b hb
      simp only [List.mem_singleton] at hb
      subst hb
      have := natRangeFrom_mem ha
      omega

theorem phase_progress_getLast (n : Nat) :
    (0 :: (natRangeFrom 0 n ++ [n])).getLast? = some n := by
  rw [show (0 :: (natRangeFrom 0 n ++ [n])) = (0 :: natRangeFrom 0 n) ++ [n] by simp]
  exact List.getLast?_concat _

theorem head?_scanl {α : Type} (f : ℚ → α → ℚ) (b : ℚ) (l : List α) :
    (List.scanl f b l).head? = some b := by
  cases l <;> simp [List.scanl]

theorem widthStep_le (w : ℚ) (ls : LoadingState) : w ≤ widthStep w (some ls) := by
  simp only [widthStep]
  split
  · exact le_of_lt (by assumption)
  · exact le_refl w

/-- The progress-bar widths over a run's updates are non-decreasing: the
effect only ever replaces the width with a strictly larger target. -/
theorem widthScanl_chain :
    ∀ (l : List LoadingState) (w : ℚ),
    List.Chain' (· ≤ ·) (List.scanl (fun w ls => widthStep w (some ls)) w l) := by
  intro l
  induction l with
  | nil => intro w; simp
  | cons ls rest ih =>
    intro w
    rw [List.scanl_cons]
    refine List.chain'_cons'.2 ⟨?_, ih _⟩
    intro y hy
    simp only [List.append_eq, List.nil_append] at hy
    rw [head?_scanl] at hy
    cases hy
    exact widthStep_le w ls

/-- Every loading update reports `total = n` and `progress ≤ n`. -/
def progressBounded (n : Nat) (t : List TraceEv) : Bool :=
  (loadingUpdates t).all (fun ls => ls.total == n && decide (ls.progress ≤ n))

theorem searchLoop_progressBounded (searchO : String → ExaPersonInfo) (total : Nat) :
    ∀ (l : List String) (i : Nat), i + l.length ≤ total →
    (loadingUpdates (searchLoop searchO total l i).1).all
      (fun ls => ls.total == total && decide (ls.progress ≤ total)) = true := by
  intro l
  induction l with
  | nil => intro i _; rfl
  | cons a rest ih =>
    intro i hle
    simp only [List.length_cons] at hle
    simp only [searchLoop, loadingUpdates, List.all_cons, Bool.and_eq_true,
      beq_iff_eq, decide_eq_true_eq]
    exact ⟨⟨by simp, by omega⟩, ih (i + 1) (by omega)⟩

theorem summaryLoop_progressBounded (summaryO : ExaPersonInfo → PersonSummary)
    (total : Nat) :
    ∀ (l : List ExaPersonInfo) (i : Nat), i + l.length ≤ total →
    (loadingUpdates (summaryLoop summaryO total l i).1).all
      (fun ls => ls.total == total && decide (ls.progress ≤ total)) = true := by
  intro l
  induction l with
  | nil => intro i _; rfl
  | cons r rest ih =>
    intro i hle
    simp only [List.length_cons] at hle
    simp only [summaryLoop, loadingUpdates, List.all_cons, Bool.and_eq_true,
      beq_iff_eq, decide_eq_true_eq]
    exact ⟨⟨by simp, by omega⟩, ih (i + 1) (by omega)⟩

theorem loadingUpdates_traceShape (ev0 ls1 ls2 ls3 : LoadingState)
    (rs : List ExaPersonInfo) (ss : List PersonSummary) (A B : List TraceEv) :
    loadingUpdates (traceShape ev0 ls1 ls2 ls3 rs ss A B)
      = ev0 :: (loadingUpdates A ++ (ls1 :: ls2 :: (loadingUpdates B ++ [ls3]))) := by
  simp [traceShape, loadingUpdates, loadingUpdates_append]

theorem stageProgress_traceShape (st : Stage) (ev0 ls1 ls2 ls3 : LoadingState)
    (rs : List ExaPersonInfo) (ss : List PersonSummary) (A B : List TraceEv) :
    stageProgress st (traceShape ev0 ls1 ls2 ls3 rs ss A B)
      = (if ev0.stage == st then [ev0.progress] else []) ++
        (stageProgress st A ++
          ((if ls1.stage == st then [ls1.progress] else []) ++
            ((if ls2.stage == st then [ls2.progress] else []) ++
              (stageProgress st B ++
                (if ls3.stage == st then [ls3.progress] else []))))) := by
  simp only [traceShape, stageProgress, stageProgress_append, List.cons_append,
    List.nil_append]
  split <;> split <;> split <;> split <;> simp [stageProgress]

/-- C5: progress reporting is bounded and monotone.  Throughout a run of
`handleContinue` over `n` attendees every `setLoadingState` update
satisfies `total = n` and `progress ≤ n` (`progressBounded`); the progress
values are non-decreasing within each stage and equal `n` at the end of
each stage; the rendered progress-bar widths (the `ExaResults` effect
folds `widthStep` over the updates) are non-decreasing over the whole run,
because the effect replaces the previous width only with a strictly
larger target; and the width resets to 0 exactly when the loading state is
cleared. -/
theorem handleContinue_progress_monotone (searchO : String → ExaPersonInfo)
    (summaryO : ExaPersonInfo → PersonSummary) (attendees : List String) :
    progressBounded attendees.length (handleContinue searchO summaryO attendees).1
      = true ∧
    List.Pairwise (· ≤ ·)
      (stageProgress Stage.searching (handleContinue searchO summaryO attendees).1) ∧
    List.Pairwise (· ≤ ·)
      (stageProgress Stage.summarizing (handleContinue searchO summaryO attendees).1) ∧
    (stageProgress Stage.searching
        (handleContinue searchO summaryO attendees).1).getLast?
      = (if attendees.isEmpty then none else some attendees.length) ∧
    (stageProgress Stage.summarizing
        (handleContinue searchO summaryO attendees).1).getLast?
      = (if attendees.isEmpty then none else some attendees.length) ∧
    List.Chain' (· ≤ ·)
      (List.scanl (fun w ls => widthStep w (some ls)) 0
        (loadingUpdates (handleContinue searchO summaryO attendees).1)) ∧
    (∀ w : ℚ, widthStep w none = 0) := by
  cases attendees with
  | nil =>
    exact ⟨rfl, List.Pairwise.nil, List.Pairwise.nil, rfl, rfl, by simp, fun w => rfl⟩
  | cons a0 rest =>
    refine ⟨?_, ?_, ?_, ?_, ?_, ?_, fun w => rfl⟩
    · rw [handleContinue_trace_eq, progressBounded, loadingUpdates_traceShape]
      simp only [List.length_map, List.all_cons, List.all_append, Bool.and_eq_true]
      refine ⟨by simp, ?_, by simp, by simp, ?_, by simp⟩
      · exact searchLoop_progressBounded searchO _ _ 0 (by simp)
      · exact summaryLoop_progressBounded summaryO _ _ 0 (by simp)
    · rw [handleContinue_trace_eq, stageProgress_traceShape,
        stageProgress_searchLoop, stageProgress_summaryLoop_searching]
      simpa using phase_progress_pairwise (rest.length + 1)
    · rw [handleContinue_trace_eq, stageProgress_traceShape,
        stageProgress_searchLoop_summarizing, stageProgress_summaryLoop]
      simpa using phase_progress_pairwise (rest.length + 1)
    · rw [handleContinue_trace_eq, stageProgress_traceShape,
        stageProgress_searchLoop, stageProgress_summaryLoop_searching]
      simpa using phase_progress_getLast (rest.length + 1)
    · rw [handleContinue_trace_eq, stageProgress_traceShape,
        stageProgress_searchLoop_summarizing, stageProgress_summaryLoop]
      simpa using phase_progress_getLast (rest.length + 1)
    · exact widthScanl_chain _ 0

/-! ### C6: the exa route is a thin projection over the search provider -/

/-- C6: for every request carrying a name, when the API key is configured
and the provider responds successfully, the route queries the provider
with query `<name> professional background experience career`,
`numResults 5` and type `keyword`, and returns `{ name, searchResults }`
where `name` echoes the input and `searchResults` has the same length and
order as the provider's results, each element copying exactly the
provider's `title`, `url`, `publishedDate`, `author`, `summary` and
`text` fields. -/
theorem exaSearchRoute_thin_projection (name key : String)
    (results : List ExaApiResult) :
    (exaSearchRoutePOST name (some key) (ProviderOutcome.ok results)).1
      = [{ query := name ++ " professional background experience career",
           numResults := 5, searchType := "keyword" }] ∧
    ∃ info, (exaSearchRoutePOST name (some key) (ProviderOutcome.ok results)).2
        = RouteResponse.jsonOk info ∧
      info.name = name ∧
      info.searchResults.length = results.length ∧
      (∀ i : Nat,
        (info.searchResults.get? i).map ExaSearchResult.title
          = (results.get? i).map ExaApiResult.title ∧
        (info.searchResults.get? i).map ExaSearchResult.url
          = (results.get? i).map ExaApiResult.url ∧
        (info.searchResults.get? i).map ExaSearchResult.publishedDate
          = (results.get? i).map ExaApiResult.publishedDate ∧
        (info.searchResults.get? i).map ExaSearchResult.author
          = (results.get? i).map ExaApiResult.author ∧
        (info.searchResults.get? i).map ExaSearchResult.summary
          = (results.get? i).map ExaApiResult.summary ∧
        (info.searchResults.get? i).map ExaSearchResult.text
          = (results.get? i).map ExaApiResult.text) := by
  refine ⟨rfl, ⟨_, rfl, rfl, by simp [exaSearchRoutePOST], ?_⟩⟩
  intro i
  simp only [exaSearchRoutePOST, List.get?_map, Option.map_map]
  refine ⟨?_, ?_, ?_, ?_, ?_, ?_⟩ <;> rfl

/-! ### C7: the calendar grid (`CalendarGrid.tsx`)

Days are modelled as absolute day numbers (`ℤ`), with day 0 on the
week's first day, so the date-fns `startOfWeek` of `d` is the largest
multiple-of-7 boundary not after `d`.  A month is abstracted to its first
day and its length in days; `startOfMonth`/`endOfMonth` of the selected
date deliver exactly these two values.  An event contributes its start
day (`isSameDay(new Date(event.start.dateTime), date)` compares calendar
days). -/

/-- date-fns `startOfWeek` (week starts Sunday, the default). -/
def startOfWeek (d : ℤ) : ℤ := d - d % 7

/-- date-fns `endOfWeek`. -/
def endOfWeek (d : ℤ) : ℤ := startOfWeek d + 6

/-- date-fns `eachDayOfInterval`: every day from `a` to `b` inclusive. -/
def eachDayOfInterval (a b : ℤ) : List ℤ :=
  (List.range (b - a + 1).toNat).map (fun k : ℕ => a + (k : ℤ))

/-- A calendar month: its first day and its number of days. -/
structure MonthSpan where
  firstDay : ℤ
  length : ℕ
  deriving DecidableEq, Repr

def monthLastDay (m : MonthSpan) : ℤ := m.firstDay + m.length - 1

/-- `CalendarGrid`'s `calendarDays`:
`eachDayOfInterval(startOfWeek(startOfMonth(selectedDate)),
endOfWeek(endOfMonth(selectedDate)))`. -/
def calendarDays (m : MonthSpan) : List ℤ :=
  eachDayOfInterval (startOfWeek m.firstDay) (endOfWeek (monthLastDay m))

/-- An event as the grid sees it. -/
structure GridEvent where
  id : String
  summary : String
  startDay : ℤ
  deriving DecidableEq, Repr

/-- `getEventsForDay`: the events whose start falls on the given day. -/
def getEventsForDay (events : List GridEvent) (d : ℤ) : List GridEvent :=
  events.filter (fun e => e.startDay == d)

/-- The events a day cell lists: `getEventsForDay(day).slice(0, 3)`. -/
def dayCellShown (events : List GridEvent) (d : ℤ) : List GridEvent :=
  (getEventsForDay events d).take 3

/-- The day cell's overflow count, shown when more than 3 events fall on
the day: `+{length - 3} more`. -/
def dayCellOverflow (events : List GridEvent) (d : ℤ) : Option ℕ :=
  if 3 < (getEventsForDay events d).length then
    some ((getEventsForDay events d).length - 3)
  else none

/-- C7: the grid renders exactly the days from the start of the week
containing the month's first day through the end of the week containing
the month's last day — a whole number of weeks, each day exactly once in
calendar order; a day's events are exactly the events whose start falls
on that day, in order; a cell lists at most 3 events (a prefix of the
day's events); and a day with `k > 3` events additionally shows an
overflow count of `k - 3`, a day with at most 3 shows none. -/
theorem calendarGrid_rendering (m : MonthSpan) (events : List GridEvent)
    (d : ℤ) (e : GridEvent) :
    (calendarDays m).length % 7 = 0 ∧
    List.Pairwise (· < ·) (calendarDays m) ∧
    (calendarDays m).Nodup ∧
    (d ∈ calendarDays m ↔
      startOfWeek m.firstDay ≤ d ∧ d ≤ endOfWeek (monthLastDay m)) ∧
    (e ∈ getEventsForDay events d ↔ e ∈ events ∧ e.startDay = d) ∧
    dayCellShown events d = (getEventsForDay events d).take 3 ∧
    (dayCellShown events d).length ≤ 3 ∧
    (3 < (getEventsForDay events d).length →
      dayCellOverflow events d = some ((getEventsForDay events d).length - 3)) ∧
    ((getEventsForDay events d).length ≤ 3 → dayCellOverflow events d = none) := by
  have hpw : List.Pairwise (· < ·) (calendarDays m) := by
    unfold calendarDays eachDayOfInterval
    refine List.Pairwise.map _ ?_ (List.pairwise_lt_range _)
    intro a b hab
    omega
  refine ⟨?_, hpw, ?_, ?_, ?_, rfl, ?_, ?_, ?_⟩
  · simp only [calendarDays, eachDayOfInterval, endOfWeek, monthLastDay, startOfWeek]
    rw [List.length_map, List.length_range]
    omega
  · exact List.Pairwise.imp (fun h => ne_of_lt h) hpw
  · unfold calendarDays eachDayOfInterval
    simp only [List.mem_map, List.mem_range]
    constructor
    · rintro ⟨k, hk, rfl⟩
      omega
    · rintro ⟨h1, h2⟩
      exact ⟨(d - startOfWeek m.firstDay).toNat, by omega, by omega⟩
  · simp [getEventsForDay]
  · simpa [dayCellShown] using List.length_take_le 3 (getEventsForDay events d)
  · intro h
    simp [dayCellOverflow, h]
  · intro h
    simp [dayCellOverflow]
    omega

/-! ### C9: source numbering and `renderSummaryWithLinks`

`renderSummaryWithLinks` works on JavaScript strings via `split`; it is
embedded over `List Char`.  `splitOnL` is JavaScript's `String.split` with
a non-empty separator: greedy, left to right, non-overlapping. -/

def splitOnL (sep : List Char) : List Char → List (List Char)
  | [] => [[]]
  | a :: as =>
    if sep = [] then [a :: as]
    else if sep.isPrefixOf (a :: as) then
      [] :: splitOnL sep ((a :: as).drop sep.length)
    else
      match splitOnL sep as with
      | [] => [[a]]
      | p :: ps => (a :: p) :: ps
  termination_by l => l.length
  decreasing_by
  · simp only [List.length_drop, List.length_cons]
    have : sep.length ≠ 0 := by
      simpa [List.length_eq_zero] using ‹¬ sep = []›
    omega
  · simp


theorem splitOnL_ne_nil (sep : List Char) (l : List Char) : splitOnL sep l ≠ [] := by
  cases l with
  | nil => simp [splitOnL]
  | cons a as =>
    rw [splitOnL]
    split
    · simp
    · split
      · simp
      · split <;> simp

theorem splitOnL_head_prefix (sep : List Char) :
    ∀ (l p : List Char) (ps : List (List Char)), splitOnL sep l = p :: ps → p <+: l := by
  intro l
  induction l using splitOnL.induct sep with
  | case1 =>
    intro p ps h
    simp only [splitOnL, List.cons.injEq] at h
    rcases h with ⟨rfl, -⟩
    exact List.prefix_refl _
  | case2 a as hsep =>
    intro p ps h
    rw [splitOnL, if_pos hsep] at h
    simp only [List.cons.injEq] at h
    rcases h with ⟨rfl, -⟩
    exact List.prefix_refl _
  | case3 a as hsep hpre ih =>
    intro p ps h
    rw [splitOnL, if_neg hsep, if_pos hpre] at h
    simp only [List.cons.injEq] at h
    rcases h with ⟨rfl, -⟩
    exact List.nil_prefix
  | case4 a as hsep hpre hnil ih =>
    exact absurd hnil (splitOnL_ne_nil sep as)
  | case5 a as hsep hpre p0 ps0 heq ih =>
    intro p ps h
    rw [splitOnL, if_neg hsep, if_neg hpre, heq] at h
    simp only [List.cons.injEq] at h
    rcases h with ⟨rfl, -⟩
    exact List.cons_prefix_cons.2 ⟨rfl, ih p0 ps0 heq⟩

theorem splitOnL_parts_infix (sep : List Char) :
    ∀ (l : List Char), ∀ p ∈ splitOnL sep l, p <:+: l := by
  intro l
  induction l using splitOnL.induct sep with
  | case1 =>
    intro p hp
    simp only [splitOnL, List.mem_singleton] at hp
    subst hp
    exact List.infix_refl _
  | case2 a as hsep =>
    intro p hp
    rw [splitOnL, if_pos hsep] at hp
    simp only [List.mem_singleton] at hp
    subst hp
    exact List.infix_refl _
  | case3 a as hsep hpre ih =>
    intro p hp
    rw [splitOnL, if_neg hsep, if_pos hpre] at hp
    rcases List.mem_cons.1 hp with rfl | hp
    · exact List.nil_infix
    · exact (ih p hp).trans ((List.drop_suffix _ _).isInfix)
  | case4 a as hsep hpre hnil ih =>
    exact absurd hnil (splitOnL_ne_nil sep as)
  | case5 a as hsep hpre p0 ps0 heq ih =>
    intro p hp
    rw [splitOnL, if_neg hsep, if_neg hpre, heq] at hp
    rcases List.mem_cons.1 hp with rfl | hp
    · exact (List.cons_prefix_cons.2 ⟨rfl, splitOnL_head_prefix sep as p0 ps0 heq⟩).isInfix
    · exact List.infix_cons (ih p (heq ▸ List.mem_cons_of_mem p0 hp))

theorem splitOnL_not_infix (sep : List Char) (hsep : sep ≠ []) :
    ∀ (l : List Char), ∀ p ∈ splitOnL sep l, ¬ sep <:+: p := by
  intro l
  induction l using splitOnL.induct sep with
  | case1 =>
    intro p hp
    simp only [splitOnL, List.mem_singleton] at hp
    subst hp
    intro hinf
    exact hsep (List.eq_nil_of_infix_nil hinf)
  | case2 a as h => exact absurd h hsep
  | case3 a as _ hpre ih =>
    intro p hp
    rw [splitOnL, if_neg hsep, if_pos hpre] at hp
    rcases List.mem_cons.1 hp with rfl | hp
    · intro hinf
      exact hsep (List.eq_nil_of_infix_nil hinf)
    · exact ih p hp
  | case4 a as _ hpre hnil ih =>
    exact absurd hnil (splitOnL_ne_nil sep as)
  | case5 a as _ hpre p0 ps0 heq ih =>
    intro p hp
    rw [splitOnL, if_neg hsep, if_neg hpre, heq] at hp
    rcases List.mem_cons.1 hp with rfl | hp
    · intro hinf
      rcases List.infix_cons_iff.1 hinf with hpref | hinf2
      · have : p0 <+: as := splitOnL_head_prefix sep as p0 ps0 heq
        have : (a :: p0) <+: (a :: as) := List.cons_prefix_cons.2 ⟨rfl, this⟩
        have : sep <+: (a :: as) := hpref.trans this
        rw [← List.isPrefixOf_iff_prefix] at this
        exact hpre this
      · exact ih p0 (heq ▸ List.mem_cons_self p0 ps0) hinf2
    · exact ih p (heq ▸ List.mem_cons_of_mem p0 hp)

def joinSep (sep : List Char) : List (List Char) → List Char
  | [] => []
  | [p] => p
  | p :: q :: ps => p ++ sep ++ joinSep sep (q :: ps)

theorem joinSep_cons_of_ne_nil (sep : List Char) (p : List Char)
    (qs : List (List Char)) (h : qs ≠ []) :
    joinSep sep (p :: qs) = p ++ sep ++ joinSep sep qs := by
  cases qs with
  | nil => exact absurd rfl h
  | cons q ps => rfl

theorem joinSep_splitOnL (sep : List Char) (hsep : sep ≠ []) :
    ∀ (l : List Char), joinSep sep (splitOnL sep l) = l := by
  intro l
  induction l using splitOnL.induct sep with
  | case1 => simp [splitOnL, joinSep]
  | case2 a as h => exact absurd h hsep
  | case3 a as _ hpre ih =>
    rw [splitOnL, if_neg hsep, if_pos hpre]
    rw [joinSep_cons_of_ne_nil sep [] _ (splitOnL_ne_nil sep _), ih]
    rw [List.nil_append]
    obtain ⟨t, ht⟩ := List.isPrefixOf_iff_prefix.1 hpre
    rw [← ht, List.drop_left]
  | case4 a as _ hpre hnil ih =>
    exact absurd hnil (splitOnL_ne_nil sep as)
  | case5 a as _ hpre p0 ps0 heq ih =>
    rw [splitOnL, if_neg hsep, if_neg hpre, heq]
    rw [heq] at ih
    cases ps0 with
    | nil =>
      simp only [joinSep] at ih ⊢
      rw [ih]
    | cons q ps =>
      simp only [joinSep, List.cons_append] at ih ⊢
      rw [ih]

inductive RPart where
  | text (s : List Char)
  | link (url : String) (tag : List Char)
  deriving DecidableEq, Repr

def linksThen (url : String) (tag : List Char) : List (List Char) → List RPart
  | [] => []
  | r :: rest => RPart.link url tag :: RPart.text r :: linksThen url tag rest

def interleaveTag (url : String) (tag : List Char) : List (List Char) → List RPart
  | [] => []
  | t :: rest => RPart.text t :: linksThen url tag rest

def splitPart (url : String) (tag : List Char) : RPart → List RPart
  | RPart.link u t => [RPart.link u t]
  | RPart.text s => interleaveTag url tag (splitOnL tag s)

def flatMapParts (f : RPart → List RPart) : List RPart → List RPart
  | [] => []
  | p :: ps => f p ++ flatMapParts f ps

def sourceTag (i : Nat) : List Char := ("[Source " ++ toString i ++ "]").data

def applySources : Nat → List (String × String) → List RPart → List RPart
  | _, [], parts => parts
  | k, src :: rest, parts =>
      applySources (k + 1) rest (flatMapParts (splitPart src.2 (sourceTag (k + 1))) parts)

def renderSummaryWithLinks (summary : List Char)
    (sources : List (String × String)) : List RPart :=
  applySources 0 sources [RPart.text summary]

def partText : RPart → List Char
  | RPart.text s => s
  | RPart.link _ tag => tag

def flattenParts : List RPart → List Char
  | [] => []
  | p :: ps => partText p ++ flattenParts ps

theorem flattenParts_append (xs ys : List RPart) :
    flattenParts (xs ++ ys) = flattenParts xs ++ flattenParts ys := by
  induction xs with
  | nil => rfl
  | cons p ps ih => simp [flattenParts, ih]

theorem flattenParts_interleaveTag (url : String) (tag : List Char) :
    ∀ parts, flattenParts (interleaveTag url tag parts) = joinSep tag parts := by
  intro parts
  induction parts with
  | nil => rfl
  | cons t rest ih =>
    cases rest with
    | nil => simp [interleaveTag, linksThen, flattenParts, joinSep, partText]
    | cons r rs =>
      simp only [interleaveTag, linksThen, flattenParts, partText, joinSep,
        List.append_assoc] at ih ⊢
      rw [ih]

theorem sourceTag_ne_nil (i : Nat) : sourceTag i ≠ [] := by
  simp only [sourceTag, String.data_append]
  exact List.append_ne_nil_of_left_ne_nil
    (List.append_ne_nil_of_left_ne_nil (by decide) _) _

theorem flattenParts_splitPart (url : String) (tag : List Char) (htag : tag ≠ [])
    (p : RPart) : flattenParts (splitPart url tag p) = partText p := by
  cases p with
  | link u t => simp [splitPart, flattenParts, partText]
  | text s =>
    rw [splitPart, flattenParts_interleaveTag, joinSep_splitOnL tag htag]
    rfl

theorem flattenParts_flatMapParts (url : String) (tag : List Char) (htag : tag ≠ []) :
    ∀ parts, flattenParts (flatMapParts (splitPart url tag) parts)
      = flattenParts parts := by
  intro parts
  induction parts with
  | nil => rfl
  | cons p ps ih =>
    simp only [flatMapParts, flattenParts, flattenParts_append, ih,
      flattenParts_splitPart url tag htag]

theorem flattenParts_applySources :
    ∀ (srcs : List (String × String)) (k : Nat) (parts : List RPart),
    flattenParts (applySources k srcs parts) = flattenParts parts := by
  intro srcs
  induction srcs with
  | nil => intro k parts; rfl
  | cons src rest ih =>
    intro k parts
    rw [applySources, ih]
    exact flattenParts_flatMapParts _ _ (sourceTag_ne_nil _) _

theorem mem_linksThen (url : String) (tag : List Char) :
    ∀ (L : List (List Char)) (x : RPart), x ∈ linksThen url tag L →
    x = RPart.link url tag ∨ ∃ r ∈ L, x = RPart.text r := by
  intro L
  induction L with
  | nil => intro x h; simp [linksThen] at h
  | cons r rest ih =>
    intro x h
    simp only [linksThen, List.mem_cons] at h
    rcases h with rfl | rfl | h
    · exact Or.inl rfl
    · exact Or.inr ⟨r, List.mem_cons_self r rest, rfl⟩
    · rcases ih x h with h1 | ⟨r', hr', rfl⟩
      · exact Or.inl h1
      · exact Or.inr ⟨r', List.mem_cons_of_mem r hr', rfl⟩

theorem text_mem_interleaveTag (url : String) (tag : List Char)
    (L : List (List Char)) (s : List Char)
    (h : RPart.text s ∈ interleaveTag url tag L) : s ∈ L := by
  cases L with
  | nil => simp [interleaveTag] at h
  | cons t rest =>
    simp only [interleaveTag, List.mem_cons] at h
    rcases h with h | h
    · simp only [RPart.text.injEq] at h
      subst h
      exact List.mem_cons_self _ _
    · rcases mem_linksThen url tag rest _ h with h1 | ⟨r, hr, heq⟩
      · cases h1
      · cases heq
        exact List.mem_cons_of_mem t hr

theorem link_mem_interleaveTag (url : String) (tag : List Char)
    (L : List (List Char)) (u : String) (t : List Char)
    (h : RPart.link u t ∈ interleaveTag url tag L) : u = url ∧ t = tag := by
  cases L with
  | nil => simp [interleaveTag] at h
  | cons t0 rest =>
    simp only [interleaveTag, List.mem_cons] at h
    rcases h with h | h
    · cases h
    · rcases mem_linksThen url tag rest _ h with h1 | ⟨r, hr, heq⟩
      · cases h1; exact ⟨rfl, rfl⟩
      · cases heq

theorem mem_flatMapParts (f : RPart → List RPart) :
    ∀ (parts : List RPart) (x : RPart), x ∈ flatMapParts f parts →
    ∃ p ∈ parts, x ∈ f p := by
  intro parts
  induction parts with
  | nil => intro x h; simp [flatMapParts] at h
  | cons p ps ih =>
    intro x h
    simp only [flatMapParts, List.mem_append] at h
    rcases h with h | h
    · exact ⟨p, List.mem_cons_self p ps, h⟩
    · rcases ih x h with ⟨q, hq, hx⟩
      exact ⟨q, List.mem_cons_of_mem p hq, hx⟩

theorem applySources_link :
    ∀ (srcs : List (String × String)) (k : Nat) (parts : List RPart)
      (u : String) (t : List Char),
    RPart.link u t ∈ applySources k srcs parts →
    RPart.link u t ∈ parts ∨
      ∃ j ti, srcs.get? j = some (ti, u) ∧ t = sourceTag (k + j + 1) := by
  intro srcs
  induction srcs with
  | nil => intro k parts u t h; exact Or.inl h
  | cons src rest ih =>
    intro k parts u t h
    rw [applySources] at h
    rcases ih (k + 1) _ u t h with h1 | ⟨j, ti, hj, ht⟩
    · rcases mem_flatMapParts _ _ _ h1 with ⟨p, hp, hx⟩
      cases p with
      | link u' t' =>
        simp only [splitPart, List.mem_singleton] at hx
        cases hx
        exact Or.inl hp
      | text s =>
        rw [splitPart] at hx
        obtain ⟨rfl, rfl⟩ := link_mem_interleaveTag _ _ _ _ _ hx
        exact Or.inr ⟨0, src.1, by cases src; rfl, by rw [Nat.add_zero]⟩
    · refine Or.inr ⟨j + 1, ti, by simpa using hj, ?_⟩
      rw [ht]
      congr 1
      omega

theorem applySources_text :
    ∀ (srcs : List (String × String)) (k : Nat) (parts : List RPart) (s : List Char),
    RPart.text s ∈ applySources k srcs parts →
    (∃ s0, RPart.text s0 ∈ parts ∧ s <:+: s0) ∧
    ∀ j, j < srcs.length → ¬ sourceTag (k + j + 1) <:+: s := by
  intro srcs
  induction srcs with
  | nil =>
    intro k parts s h
    exact ⟨⟨s, h, List.infix_refl s⟩, fun j hj => absurd hj (Nat.not_lt_zero j)⟩
  | cons src rest ih =>
    intro k parts s h
    rw [applySources] at h
    obtain ⟨⟨s1, hs1, hinf⟩, htags⟩ := ih (k + 1) _ s h
    rcases mem_flatMapParts _ _ _ hs1 with ⟨p, hp, hx⟩
    cases p with
    | link u' t' =>
      simp only [splitPart, List.mem_singleton] at hx
      cases hx
    | text s0 =>
      rw [splitPart] at hx
      have hmem := text_mem_interleaveTag _ _ _ _ hx
      have hs1s0 : s1 <:+: s0 := splitOnL_parts_infix _ s0 s1 hmem
      have hnot : ¬ sourceTag (k + 1) <:+: s1 :=
        splitOnL_not_infix _ (sourceTag_ne_nil _) s0 s1 hmem
      refine ⟨⟨s0, hp, hinf.trans hs1s0⟩, ?_⟩
      intro j hj
      cases j with
      | zero =>
        rw [Nat.add_zero]
        intro hcon
        exact hnot (hcon.trans hinf)
      | succ j' =>
        have := htags j' (by simpa using hj)
        intro hcon
        apply this
        have : k + (j' + 1) + 1 = k + 1 + j' + 1 := by omega
        rwa [this] at hcon

/-- C9: source numbering is consistent end to end.  The summary route
enumerates `personInfo.searchResults` in order as `[Source 1] ..
[Source n]` both in the prompt's source list and text blocks and in the
returned sources array, so `[Source i]` denotes `searchResults[i-1]`'s
title and url; and `renderSummaryWithLinks` turns every occurrence of the
literal text `[Source i]` into a link whose href is `sources[i-1].url`
while leaving all other text unchanged: the rendered parts flatten back
to the summary, every produced link carries the url of the source its tag
numbers, and no `[Source i]` tag (1 ≤ i ≤ n) survives in any text part. -/
theorem summary_source_numbering (personInfo : ExaPersonInfo) (content : String)
    (i : Nat) (summary : List Char) (sources : List (String × String)) :
    (promptSourceLines personInfo)[i]?
      = (personInfo.searchResults[i]?).map
          (fun r => "[Source " ++ toString (i + 1) ++ "] " ++ r.title
            ++ " (" ++ r.url ++ ")") ∧
    (promptTextBlocks personInfo)[i]?
      = (personInfo.searchResults[i]?).map
          (fun r => "[Source " ++ toString (i + 1) ++ "]\n" ++ r.text) ∧
    (summaryRouteSourcesArray personInfo)[i]?
      = (personInfo.searchResults[i]?).map (fun r => (r.title, r.url)) ∧
    summaryRoutePOST personInfo (OpenAIOutcome.ok content)
      = SummaryRouteResponse.jsonOk
          ⟨personInfo.name, content, some (summaryRouteSourcesArray personInfo),
            none⟩ ∧
    flattenParts (renderSummaryWithLinks summary sources) = summary ∧
    (∀ (u : String) (t : List Char),
      RPart.link u t ∈ renderSummaryWithLinks summary sources →
      ∃ j ti, sources[j]? = some (ti, u) ∧ t = sourceTag (j + 1)) ∧
    (∀ s : List Char, RPart.text s ∈ renderSummaryWithLinks summary sources →
      ∀ j, j < sources.length → ¬ sourceTag (j + 1) <:+: s) := by
  refine ⟨?_, ?_, ?_, rfl, ?_, ?_, ?_⟩
  · simp only [promptSourceLines, List.getElem?_map, List.getElem?_enum,
      Option.map_map]
    cases personInfo.searchResults[i]? <;> rfl
  · simp only [promptTextBlocks, List.getElem?_map, List.getElem?_enum,
      Option.map_map]
    cases personInfo.searchResults[i]? <;> rfl
  · simp only [summaryRouteSourcesArray, List.getElem?_map]
  · rw [renderSummaryWithLinks, flattenParts_applySources]
    simp [flattenParts, partText]
  · intro u t h
    rw [renderSummaryWithLinks] at h
    rcases applySources_link sources 0 _ u t h with h1 | ⟨j, ti, hj, ht⟩
    · simp at h1
    · refine ⟨j, ti, by simpa using hj, ?_⟩
      rw [ht]
      congr 1
      omega
  · intro s h j hj
    rw [renderSummaryWithLinks] at h
    obtain ⟨-, htags⟩ := applySources_text sources 0 _ s h
    have := htags j hj
    rwa [show 0 + j + 1 = j + 1 by omega] at this

/-! ### C8: failures are reported as values -/

theorem ne_empty_of_length_pos (s : String) (h : 0 < s.length) : s ≠ "" := by
  intro he
  rw [he] at h
  exact absurd h (by decide)

/-- C8 counterexample: when the underlying fetch throws an `Error` whose
own message is the empty string, the service functions set the error
field to that empty message — the claim's "non-empty error message" fails
at this input. -/
theorem empty_error_message_propagated :
    (searchPerson "Ada" (FetchOutcome.threw (some ""))).error = some "" ∧
    (generatePersonSummary { name := "Ada", searchResults := [], error := none }
        (SummaryFetchOutcome.threw (some ""))).error = some "" :=
  ⟨rfl, rfl⟩

/-- C8 (amended): `searchPerson` and `generatePersonSummary` are total at
their interface and report failures as values, never as exceptions: on a
non-ok response they return `{ name, searchResults: [], error }` resp.
`{ name, summary: "", error }` with a non-empty error message; on a
thrown value the error field is always set, and its message is non-empty
unless the thrown `Error` itself carried the empty message, which is
propagated verbatim; a result without the error field set is produced
only by the success path. -/
theorem failures_reported_as_values :
    (∀ (name : String) (status : Nat) (statusText body : String),
      ∃ msg, searchPerson name (FetchOutcome.httpError status statusText body)
          = { name := name, searchResults := [], error := some msg } ∧ msg ≠ "") ∧
    (∀ (name : String) (m : Option String),
      ∃ msg, searchPerson name (FetchOutcome.threw m)
          = { name := name, searchResults := [], error := some msg } ∧
        (msg = "" → m = some "")) ∧
    (∀ (name : String) (resp : FetchOutcome ExaPersonInfo),
      (searchPerson name resp).error = none → ∃ data, resp = FetchOutcome.ok data) ∧
    (∀ (p : ExaPersonInfo) (status : Nat) (statusText : String)
       (errField : Option String),
      ∃ msg, generatePersonSummary p
            (SummaryFetchOutcome.httpError status statusText errField)
          = { name := p.name, summary := "", sources := none, error := some msg } ∧
        msg ≠ "") ∧
    (∀ (p : ExaPersonInfo) (m : Option String),
      ∃ msg, generatePersonSummary p (SummaryFetchOutcome.threw m)
          = { name := p.name, summary := "", sources := none, error := some msg } ∧
        (msg = "" → m = some "")) ∧
    (∀ (p : ExaPersonInfo) (resp : SummaryFetchOutcome),
      (generatePersonSummary p resp).error = none →
        ∃ data, resp = SummaryFetchOutcome.ok data) := by
  refine ⟨?_, ?_, ?_, ?_, ?_, ?_⟩
  · intro name status statusText body
    refine ⟨"API error: " ++ body, rfl, ne_empty_of_length_pos _ ?_⟩
    rw [String.length_append]
    have h11 : ("API error: " : String).length = 11 := rfl
    omega
  · intro name m
    cases m with
    | none =>
      exact ⟨"Failed to search for person", rfl, fun h => absurd h (by decide)⟩
    | some s =>
      exact ⟨s, rfl, fun h => by rw [h]⟩
  · intro name resp
    cases resp with
    | ok data => exact fun _ => ⟨data, rfl⟩
    | httpError status statusText body => intro h; simp [searchPerson] at h
    | threw m => intro h; simp [searchPerson] at h
  · intro p status statusText errField
    have hfb : 0 < ("API error: " ++ toString status ++ " " ++ statusText).length := by
      rw [String.length_append, String.length_append, String.length_append]
      have h11 : ("API error: " : String).length = 11 := rfl
      omega
    cases errField with
    | none =>
      exact ⟨"API error: " ++ toString status ++ " " ++ statusText,
        rfl, ne_empty_of_length_pos _ hfb⟩
    | some e =>
      by_cases he : e = ""
      · refine ⟨"API error: " ++ toString status ++ " " ++ statusText,
          ?_, ne_empty_of_length_pos _ hfb⟩
        simp [generatePersonSummary, he]
      · refine ⟨e, ?_, he⟩
        simp [generatePersonSummary, he]
  · intro p m
    cases m with
    | none =>
      exact ⟨"Failed to generate summary", rfl, fun h => absurd h (by decide)⟩
    | some s =>
      exact ⟨s, rfl, fun h => by rw [h]⟩
  · intro p resp
    cases resp with
    | ok data => exact fun _ => ⟨data, rfl⟩
    | httpError status statusText errField =>
      intro h
      simp only [generatePersonSummary] at h
      cases errField <;> simp at h
    | threw m => intro h; simp [generatePersonSummary] at h

/-! ### C10: the attendee selection toggle (`handleAttendeeSelect`)

`selectedAttendees` is a JS `Set` of keys, modelled as a `Finset`;
`selectedAttendeesDetails` is a JS `Map` keyed by the same strings,
modelled as an insertion-ordered association list with `Map.get`,
`Map.set` (replace in place or append) and `Map.delete`. -/

structure Attendee where
  email : String
  displayName : Option String := none
  deriving DecidableEq, Repr

structure SelDetail where
  eventId : String
  attendee : Attendee
  deriving DecidableEq, Repr

/-- The selection key: `` `${eventId}-${attendee.email}` ``. -/
def attendeeKey (eventId : String) (a : Attendee) : String :=
  eventId ++ "-" ++ a.email

/-- JS `Map.delete`: remove the entry with the given key. -/
def mapDelete (k : String) : List (String × SelDetail) → List (String × SelDetail)
  | [] => []
  | p :: rest => if p.1 = k then mapDelete k rest else p :: mapDelete k rest

/-- JS `Map.set`: replace in place when the key exists, append
otherwise. -/
def mapSet (k : String) (v : SelDetail) :
    List (String × SelDetail) → List (String × SelDetail)
  | [] => [(k, v)]
  | p :: rest => if p.1 = k then (k, v) :: rest else p :: mapSet k v rest

/-- JS `Map.get`. -/
def mapGet (k : String) : List (String × SelDetail) → Option SelDetail
  | [] => none
  | p :: rest => if p.1 = k then some p.2 else mapGet k rest

/-- The key set of the details map. -/
def mapKeys (m : List (String × SelDetail)) : Finset String :=
  (m.map Prod.fst).toFinset

theorem mapKeys_nil : mapKeys [] = ∅ := rfl

theorem mapKeys_cons (p : String × SelDetail) (m : List (String × SelDetail)) :
    mapKeys (p :: m) = insert p.1 (mapKeys m) := by
  simp [mapKeys]

theorem mapGet_eq_none_iff (k : String) (m : List (String × SelDetail)) :
    mapGet k m = none ↔ k ∉ mapKeys m := by
  induction m with
  | nil => simp [mapGet, mapKeys]
  | cons p rest ih =>
    rw [mapGet, mapKeys_cons]
    by_cases hpk : p.1 = k
    · simp [hpk]
    · rw [if_neg hpk, ih, Finset.mem_insert]
      constructor
      · intro h hc
        rcases hc with hc | hc
        · exact hpk hc.symm
        · exact h hc
      · intro h hc
        exact h (Or.inr hc)

theorem mapKeys_mapDelete (k : String) (m : List (String × SelDetail)) :
    mapKeys (mapDelete k m) = (mapKeys m).erase k := by
  induction m with
  | nil => simp [mapDelete, mapKeys_nil]
  | cons p rest ih =>
    rw [mapDelete, mapKeys_cons]
    by_cases hpk : p.1 = k
    · rw [if_pos hpk, ih, hpk, Finset.erase_insert_eq_erase]
    · rw [if_neg hpk, mapKeys_cons, ih, Finset.erase_insert_of_ne hpk]

theorem mapKeys_mapSet (k : String) (v : SelDetail) (m : List (String × SelDetail)) :
    mapKeys (mapSet k v m) = insert k (mapKeys m) := by
  induction m with
  | nil => simp [mapSet, mapKeys_cons, mapKeys_nil]
  | cons p rest ih =>
    rw [mapSet]
    by_cases hpk : p.1 = k
    · rw [if_pos hpk, mapKeys_cons, mapKeys_cons, hpk, Finset.insert_idem]
    · rw [if_neg hpk, mapKeys_cons, mapKeys_cons, ih, Finset.Insert.comm]

theorem mapGet_mapDelete_self (k : String) (m : List (String × SelDetail)) :
    mapGet k (mapDelete k m) = none := by
  induction m with
  | nil => rfl
  | cons p rest ih =>
    rw [mapDelete]
    by_cases hpk : p.1 = k
    · rw [if_pos hpk]; exact ih
    · rw [if_neg hpk, mapGet, if_neg hpk]; exact ih

theorem mapGet_mapDelete_ne (k q : String) (hq : q ≠ k)
    (m : List (String × SelDetail)) :
    mapGet q (mapDelete k m) = mapGet q m := by
  induction m with
  | nil => rfl
  | cons p rest ih =>
    rw [mapDelete, mapGet]
    by_cases hpk : p.1 = k
    · rw [if_pos hpk, if_neg (by rw [hpk]; exact fun h => hq h.symm), ih]
    · rw [if_neg hpk, mapGet]
      by_cases hpq : p.1 = q
      · rw [if_pos hpq, if_pos hpq]
      · rw [if_neg hpq, if_neg hpq, ih]

theorem mapGet_mapSet_self (k : String) (v : SelDetail)
    (m : List (String × SelDetail)) :
    mapGet k (mapSet k v m) = some v := by
  induction m with
  | nil => simp [mapSet, mapGet]
  | cons p rest ih =>
    rw [mapSet]
    by_cases hpk : p.1 = k
    · rw [if_pos hpk, mapGet, if_pos rfl]
    · rw [if_neg hpk, mapGet, if_neg hpk]; exact ih

theorem mapGet_mapSet_ne (k q : String) (hq : q ≠ k) (v : SelDetail)
    (m : List (String × SelDetail)) :
    mapGet q (mapSet k v m) = mapGet q m := by
  induction m with
  | nil =>
    simp only [mapSet, mapGet]
    rw [if_neg (fun h : (k, v).1 = q => hq h.symm)]
  | cons p rest ih =>
    rw [mapSet, mapGet]
    by_cases hpk : p.1 = k
    · have hkq : ¬ k = q := fun h => hq h.symm
      have hpq : ¬ p.1 = q := fun h => hkq (hpk.symm.trans h)
      rw [if_pos hpk, mapGet, if_neg hkq, if_neg hpq]
    · rw [if_neg hpk, mapGet]
      by_cases hpq : p.1 = q
      · rw [if_pos hpq, if_pos hpq]
      · rw [if_neg hpq, if_neg hpq, ih]

theorem mapDelete_of_not_mem (k : String) (m : List (String × SelDetail))
    (h : k ∉ mapKeys m) : mapDelete k m = m := by
  induction m with
  | nil => rfl
  | cons p rest ih =>
    rw [mapKeys_cons, Finset.mem_insert] at h
    push_neg at h
    rw [mapDelete, if_neg (fun hc => h.1 hc.symm), ih h.2]

theorem mapSet_of_not_mem (k : String) (v : SelDetail)
    (m : List (String × SelDetail)) (h : k ∉ mapKeys m) :
    mapSet k v m = m ++ [(k, v)] := by
  induction m with
  | nil => rfl
  | cons p rest ih =>
    rw [mapKeys_cons, Finset.mem_insert] at h
    push_neg at h
    rw [mapSet, if_neg (fun hc => h.1 hc.symm), ih h.2, List.cons_append]

theorem mapDelete_mapSet_of_not_mem (k : String) (v : SelDetail)
    (m : List (String × SelDetail)) (h : k ∉ mapKeys m) :
    mapDelete k (mapSet k v m) = m := by
  rw [mapSet_of_not_mem k v m h]
  induction m with
  | nil => simp [mapDelete]
  | cons p rest ih =>
    rw [mapKeys_cons, Finset.mem_insert] at h
    push_neg at h
    rw [List.cons_append, mapDelete, if_neg (fun hc => h.1 hc.symm),
      ih h.2]

/-- The two selection structures of `Calendar`: the `selectedAttendees`
set of keys and the `selectedAttendeesDetails` map. -/
structure SelectionState where
  selected : Finset String
  details : List (String × SelDetail)
  deriving DecidableEq

/-- `handleAttendeeSelect`: toggle the attendee's key in both structures
(the enhanced-details fetch does not touch them). -/
def handleAttendeeSelect (st : SelectionState) (eventId : String) (a : Attendee) :
    SelectionState :=
  let key := attendeeKey eventId a
  if key ∈ st.selected then
    { selected := st.selected.erase key, details := mapDelete key st.details }
  else
    { selected := insert key st.selected,
      details := mapSet key ⟨eventId, a⟩ st.details }

/-- C10 (amended): `handleAttendeeSelect` keeps the two selection
structures synchronized and is a toggle: from a synchronized state, the
key set of the details map equals the selected set after every call; a
call whose key is present removes it from both structures, a call whose
key is absent adds it to both (storing `{ eventId, attendee }`); two
consecutive calls with the same arguments restore the selected set and
the details key set, and restore the details map pointwise provided the
previously stored detail under that key — if any — was
`{ eventId, attendee }`.  (Full state restoration fails when the stored
detail differs, see the counterexample.) -/
theorem handleAttendeeSelect_toggle (st : SelectionState) (eventId : String)
    (a : Attendee) :
    (mapKeys st.details = st.selected →
      mapKeys (handleAttendeeSelect st eventId a).details
        = (handleAttendeeSelect st eventId a).selected) ∧
    (attendeeKey eventId a ∈ st.selected →
      attendeeKey eventId a ∉ (handleAttendeeSelect st eventId a).selected ∧
      mapGet (attendeeKey eventId a)
        (handleAttendeeSelect st eventId a).details = none) ∧
    (attendeeKey eventId a ∉ st.selected →
      attendeeKey eventId a ∈ (handleAttendeeSelect st eventId a).selected ∧
      mapGet (attendeeKey eventId a)
          (handleAttendeeSelect st eventId a).details
        = some ⟨eventId, a⟩) ∧
    ((handleAttendeeSelect (handleAttendeeSelect st eventId a) eventId a).selected
      = st.selected) ∧
    (mapKeys st.details = st.selected →
      mapKeys (handleAttendeeSelect
          (handleAttendeeSelect st eventId a) eventId a).details
        = mapKeys st.details) ∧
    (mapKeys st.details = st.selected →
      (mapGet (attendeeKey eventId a) st.details = none ∨
        mapGet (attendeeKey eventId a) st.details = some ⟨eventId, a⟩) →
      ∀ q, mapGet q (handleAttendeeSelect
          (handleAttendeeSelect st eventId a) eventId a).details
        = mapGet q st.details) := by
  set key := attendeeKey eventId a with hkeydef
  by_cases hk : key ∈ st.selected
  · have h1 : handleAttendeeSelect st eventId a
        = { selected := st.selected.erase key,
            details := mapDelete key st.details } := by
      rw [handleAttendeeSelect, if_pos hk]
    have hk2 : key ∉ st.selected.erase key := Finset.not_mem_erase key st.selected
    have h2 : handleAttendeeSelect (handleAttendeeSelect st eventId a) eventId a
        = { selected := insert key (st.selected.erase key),
            details := mapSet key ⟨eventId, a⟩ (mapDelete key st.details) } := by
      rw [h1, handleAttendeeSelect, if_neg hk2]
    refine ⟨?_, ?_, ?_, ?_, ?_, ?_⟩
    · intro hsync
      rw [h1, mapKeys_mapDelete, hsync]
    · intro _
      rw [h1]
      exact ⟨hk2, mapGet_mapDelete_self key st.details⟩
    · intro hc
      exact absurd hk hc
    · rw [h2, Finset.insert_erase hk]
    · intro hsync
      rw [h2, mapKeys_mapSet, mapKeys_mapDelete, hsync, Finset.insert_erase hk]
    · intro hsync hval q
      rw [h2]
      by_cases hq : q = key
      · subst hq
        rcases hval with hval | hval
        · rw [mapGet_eq_none_iff, hsync] at hval
          exact absurd hk hval
        · rw [mapGet_mapSet_self, hval]
      · rw [mapGet_mapSet_ne key q hq, mapGet_mapDelete_ne key q hq]
  · have h1 : handleAttendeeSelect st eventId a
        = { selected := insert key st.selected,
            details := mapSet key ⟨eventId, a⟩ st.details } := by
      rw [handleAttendeeSelect, if_neg hk]
    have hk2 : key ∈ insert key st.selected := Finset.mem_insert_self key st.selected
    have h2 : handleAttendeeSelect (handleAttendeeSelect st eventId a) eventId a
        = { selected := (insert key st.selected).erase key,
            details := mapDelete key (mapSet key ⟨eventId, a⟩ st.details) } := by
      rw [h1, handleAttendeeSelect, if_pos hk2]
    refine ⟨?_, ?_, ?_, ?_, ?_, ?_⟩
    · intro hsync
      rw [h1, mapKeys_mapSet, hsync]
    · intro hc
      exact absurd hc hk
    · intro _
      rw [h1]
      exact ⟨hk2, mapGet_mapSet_self key ⟨eventId, a⟩ st.details⟩
    · rw [h2, Finset.erase_insert hk]
    · intro hsync
      rw [h2, mapKeys_mapDelete, mapKeys_mapSet, hsync,
        Finset.erase_insert_eq_erase, Finset.erase_eq_of_not_mem hk]
    · intro hsync _ q
      rw [h2, mapDelete_mapSet_of_not_mem key ⟨eventId, a⟩ st.details
        (by rw [hsync]; exact hk)]

/-- C10 counterexample: two consecutive calls with the same `eventId` and
attendee do not always restore the original selection state.  When the
map already holds a different detail under the key (same email, different
display name), the first call removes it and the second stores the new
attendee, so the final details differ from the original. -/
theorem handleAttendeeSelect_double_toggle_cex :
    (let st0 := handleAttendeeSelect { selected := ∅, details := [] } "ev"
        { email := "a@x", displayName := some "Alice" }
     handleAttendeeSelect
        (handleAttendeeSelect st0 "ev" { email := "a@x", displayName := some "Bob" })
        "ev" { email := "a@x", displayName := some "Bob" }
      ≠ st0) := by
  decide

end Precap
